import Mathlib

set_option linter.unusedVariables false
set_option maxRecDepth 16384

/- Shallow embedding of `src/ai_aknf_filter.py` (Gemini AKNF Roms Filter).
Python strings are modelled as `List Char`; every definition below mirrors the
corresponding Python source construct.  Whitespace is modelled by
`Char.isWhitespace` (the ASCII core of Python's `\s` / `str.strip` class). -/

/-- Whitespace test used throughout (model of Python `\s` / `str.strip`). -/
def isWS (c : Char) : Bool := c.isWhitespace

/-- Leading-whitespace removal, the `lstrip` half of Python `str.strip()`. -/
def stripLeft (l : List Char) : List Char := l.dropWhile isWS

/-- Trailing-whitespace removal, the `rstrip` half of Python `str.strip()`. -/
def stripRight (l : List Char) : List Char := (l.reverse.dropWhile isWS).reverse

/-- Model of Python `str.strip()`. -/
def pyStrip (l : List Char) : List Char := stripRight (stripLeft l)

/- ---------------------------------------------------------------------------
`extract_console_details` (src/ai_aknf_filter.py lines 128-151)
--------------------------------------------------------------------------- -/

/-- The lazy `[^)]*?\)` tail of the parenthetical regex: consume characters up
to and including the first close paren; `none` when no close paren exists. -/
def afterFirstClose : List Char → Option (List Char)
  | [] => none
  | c :: t => if c = ')' then some t else afterFirstClose t

/-- One attempted match of `\s*\([^)]*?\)\s*` anchored at the head of `s`
(greedy leading whitespace, an open paren, lazily up to the first close paren,
greedy trailing whitespace); returns the remainder after the match. -/
def matchParen (s : List Char) : Option (List Char) :=
  match s.dropWhile isWS with
  | [] => none
  | c :: t =>
    if c = '(' then (afterFirstClose t).map (fun u => u.dropWhile isWS) else none

/-- Fuel-driven scanner behind `subParens` (fuel bounds the number of scan
steps; `subParens` supplies `l.length`, which always suffices). -/
def subParensAux : Nat → List Char → List Char
  | 0, l => l
  | _ + 1, [] => []
  | fuel + 1, a :: t =>
    match matchParen (a :: t) with
    | some rem => ' ' :: subParensAux fuel rem
    | none => a :: subParensAux fuel t

/-- Model of `re.sub(r'\s*\([^)]*?\)\s*', ' ', raw_name)`: scan left to right,
replace each leftmost match by a single space, continue after the match. -/
def subParens (l : List Char) : List Char := subParensAux l.length l

/-- Fuel-driven scanner behind `subWsRuns2`. -/
def subWsRuns2Aux : Nat → List Char → List Char
  | 0, l => l
  | _ + 1, [] => []
  | _ + 1, [a] => [a]
  | fuel + 1, a :: b :: t =>
    if isWS a && isWS b then ' ' :: subWsRuns2Aux fuel (t.dropWhile isWS)
    else a :: subWsRuns2Aux fuel (b :: t)

/-- Model of `re.sub(r'\s{2,}', ' ', s)`: every run of two or more whitespace
characters is replaced by a single space (runs of length one are kept). -/
def subWsRuns2 (l : List Char) : List Char := subWsRuns2Aux l.length l

/-- Model of Python `s.split(sep, 1)` for a nonempty literal separator: split
at the first occurrence of `sep`; `none` when `sep` does not occur. -/
def splitOnceSep (sep : List Char) : List Char → Option (List Char × List Char)
  | [] => none
  | a :: t =>
    if sep.isPrefixOf (a :: t) then some ([], (a :: t).drop sep.length)
    else (splitOnceSep sep t).map (fun pq => (a :: pq.1, pq.2))

/-- The string `"Sconosciuto"`, the maker fallback of the `raw_name is None` branch. -/
def unknownBoth : List Char := "Sconosciuto".data

/-- The string `"Nome Console Sconosciuto"`, console-name fallback for `raw_name is None`. -/
def unknownConsole : List Char := "Nome Console Sconosciuto".data

/-- The string `"Produttore Sconosciuto"`, the unknown-maker sentinel. -/
def unknownMaker : List Char := "Produttore Sconosciuto".data

/-- The literal separator `" - "`. -/
def sepDash : List Char := " - ".data

/-- The cleaning phase of `extract_console_details`: strip parentheticals,
strip, collapse multi-whitespace, strip (lines 134-135). -/
def cleanedName (raw : List Char) : List Char :=
  pyStrip (subWsRuns2 (pyStrip (subParens raw)))

/-- Model of `extract_console_details` (lines 128-151).  `none` models the
`raw_name is None` case; the result is the `(maker, console_name)` pair. -/
def extractConsoleDetails : Option (List Char) → List Char × List Char
  | none => (unknownBoth, unknownConsole)
  | some raw =>
    let cleaned := cleanedName raw
    match splitOnceSep sepDash cleaned with
    | some pq =>
      let maker := pyStrip pq.1
      (if maker = [] then unknownMaker else maker, pyStrip pq.2)
    | none => (unknownMaker, cleaned)

example : extractConsoleDetails (some ("Nintendo - Game Boy".data)) =
    ("Nintendo".data, "Game Boy".data) := by decide

example : extractConsoleDetails (some ("Game Boy (Color)".data)) =
    (unknownMaker, "Game Boy".data) := by decide

/- ---------------------------------------------------------------------------
Catalog Store: the game-extraction loop of `parse_and_compress_dat`
(src/ai_aknf_filter.py lines 217-224)
--------------------------------------------------------------------------- -/

/-- Python dict assignment `d[k] = v` on an insertion-ordered assoc list:
update the existing binding in place, else append a fresh one. -/
def pyDictInsert (d : List (List Char × List Char)) (k : List Char) (v : List Char) :
    List (List Char × List Char) :=
  if d.any (fun p => p.1 == k) then
    d.map (fun p => if p.1 == k then (p.1, v) else p)
  else d ++ [(k, v)]

/-- Python dict lookup `d.get(k)`. -/
def pyDictGet (d : List (List Char × List Char)) (k : List Char) : Option (List Char) :=
  (d.find? (fun p => p.1 == k)).map (fun p => p.2)

/-- The loop of lines 217-224: each `(name, serialized fragment)` pair found
in document order is stored by name; a falsy (empty) name is skipped; a
repeated name silently overwrites the earlier record. -/
def buildGamesData (entries : List (List Char × List Char)) :
    List (List Char × List Char) :=
  entries.foldl (fun d e => if e.1 == [] then d else pyDictInsert d e.1 e.2) []

/- ---------------------------------------------------------------------------
Reconstructor: entry resolution (`reconstruct_filtered_dat`, lines 428-446)
--------------------------------------------------------------------------- -/

/-- Line 430: `sorted(list(set(kept_game_names)))` — set semantics then a
deterministic lexicographic sort. -/
def uniqueSorted (l : List (List Char)) : List (List Char) :=
  List.insertionSort (fun a b => a ≤ b) l.dedup

/-- The `.*?\?>` tail of the XML-declaration regex: consume non-newline
characters lazily until the literal `?>` (`.` does not match a newline);
`none` when `?>` is not reached. -/
def afterDeclClose : List Char → Option (List Char)
  | [] => none
  | [_] => none
  | a :: b :: t =>
    if a = '?' ∧ b = '>' then some t
    else if a = '\n' then none else afterDeclClose (b :: t)

/-- The string `"<?xml"`. -/
def xmlDeclPrefix : List Char := "<?xml".data

/-- Model of `re.sub(r"^\s*<\?xml.*?\?>", "", s)` (lines 340 and 437): remove
one anchored XML declaration together with the whitespace before it;
unchanged when the pattern does not match. -/
def stripXmlDecl (l : List Char) : List Char :=
  let r := l.dropWhile isWS
  if xmlDeclPrefix.isPrefixOf r then
    match afterDeclClose (r.drop 5) with
    | some rest => rest
    | none => l
  else l

/-- Per-entry output cleaning (line 437):
`re.sub(r"^\s*<\?xml.*?\?>", "", original_game_xml).strip()`. -/
def cleanFragment (frag : List Char) : List Char := pyStrip (stripXmlDecl frag)

/-- Result of the entry-resolution loop: emitted fragments plus the
`found_count` / `missing_count` tallies. -/
structure ReconEntries where
  fragments : List (List Char)
  foundCount : Nat
  missingCount : Nat
deriving DecidableEq

/-- The loop of lines 428-446: for each name of the deduplicated, sorted
selection, emit the cleaned original fragment when the store has it, else
count (and log) an omission and continue. -/
def reconstructEntries (store : List (List Char × List Char)) (kept : List (List Char)) :
    ReconEntries :=
  let unique := uniqueSorted kept
  { fragments := unique.filterMap (fun n => (pyDictGet store n).map cleanFragment)
  , foundCount := (unique.filter (fun n => (pyDictGet store n).isSome)).length
  , missingCount := (unique.filter (fun n => (pyDictGet store n).isNone)).length }

/- ---------------------------------------------------------------------------
Header mutation (`reconstruct_filtered_dat`, lines 360-420)
--------------------------------------------------------------------------- -/

/-- A direct child of the `<header>` element: its tag name and text. -/
structure XmlNode where
  tag : String
  text : Option (List Char)
deriving DecidableEq

/-- The string `"(GeminiAKNF)"`, the provenance marker. -/
def aknfMarker : List Char := "(GeminiAKNF)".data

/-- The tag name `"description"`. -/
def descriptionTag : String := "description"

/-- The tag name `"geminiaknf"`. -/
def aknfTagName : String := "geminiaknf"

/-- The tag name `"retool"`. -/
def retoolTag : String := "retool"

/-- The tag name `"clrmamepro"`. -/
def clrTag : String := "clrmamepro"

/-- The description-field mutation (lines 367-374) on the text of the
`<description>` tag (`none` models `desc_tag.text is None`): skipped when the
marker is already contained in the stripped text, else the marker is appended
after a space and the result re-stripped. -/
def mutateDescText (t : Option (List Char)) : Option (List Char) :=
  let orig := pyStrip (t.getD [])
  if aknfMarker <:+: orig then t
  else some (pyStrip (orig ++ ' ' :: aknfMarker))

/-- The description half of the header mutation (lines 366-374): mutate the
text of the first `<description>` child, or append a fresh one at the end
(`ET.SubElement` appends) holding exactly the marker. -/
def descStep : List XmlNode → List XmlNode
  | [] => [⟨descriptionTag, some aknfMarker⟩]
  | n :: t =>
    if n.tag == descriptionTag then ⟨n.tag, mutateDescText n.text⟩ :: t
    else n :: descStep t

/-- Lines 377-379: `find('geminiaknf')` then `remove` — drop the first child
with that tag, if any. -/
def removeFirstAknf : List XmlNode → List XmlNode
  | [] => []
  | n :: t => if n.tag == aknfTagName then t else n :: removeFirstAknf t

/-- Index of the first child with the given tag (model of `find` combined
with `list.index`, which both locate the first matching child). -/
def firstTagIdx (tg : String) : List XmlNode → Option Nat
  | [] => none
  | n :: t => if n.tag == tg then some 0 else (firstTagIdx tg t).map (· + 1)

/-- The fresh `<geminiaknf>` provenance tag (lines 382-383). -/
def freshAknfTag : XmlNode :=
  ⟨aknfTagName, some ("Created by Gemini AKNF ver. 1.0.15".data)⟩

/-- The insertion-index computation (lines 386-403): just after the first
`retool` tag when present, else at the first `clrmamepro` tag, else the end. -/
def aknfInsertIdx (ch : List XmlNode) : Nat :=
  match firstTagIdx retoolTag ch with
  | some i => i + 1
  | none =>
    match firstTagIdx clrTag ch with
    | some i => i
    | none => ch.length

/-- Python `list.insert(i, x)` (every index the code produces is ≤ length). -/
def insertAt (l : List XmlNode) (i : Nat) (x : XmlNode) : List XmlNode :=
  l.take i ++ x :: l.drop i

/-- The header-children mutation of lines 366-405: description update,
removal of the previous `geminiaknf` tag, insertion of the fresh one. -/
def mutateHeaderChildren (ch : List XmlNode) : List XmlNode :=
  let c2 := removeFirstAknf (descStep ch)
  insertAt c2 (aknfInsertIdx c2) freshAknfTag

/-- Number of children carrying the given tag. -/
def countTag (tg : String) (ch : List XmlNode) : Nat :=
  (ch.filter (fun n => n.tag == tg)).length

/- ---------------------------------------------------------------------------
Final document assembly and the header `try/except` (lines 360-446)
--------------------------------------------------------------------------- -/

/-- The declaration line `"<?xml version='1.0' encoding='utf-8'?>"` (line 424). -/
def xmlDeclLine : List Char := "<?xml version='1.0' encoding='utf-8'?>".data

/-- The root open tag of line 425. -/
def rootOpenTag (rt : List Char) : List Char := '<' :: (rt ++ ['>'])

/-- The root close tag of line 446. -/
def rootCloseTag (rt : List Char) : List Char := '<' :: '/' :: (rt ++ ['>'])

/-- Lines 360-420: the header parse-mutate-serialize body runs under
`try/except`; the body is abstracted as `stage`, with `none` modelling any
exception, upon which the original header string is used unchanged.  The
chosen string is stripped (line 420). -/
def headerStageResult (stage : List Char → Option (List Char))
    (origHeader : List Char) : List Char :=
  pyStrip ((stage origHeader).getD origHeader)

/-- Lines 422-446: the final document parts, in order (before the cosmetic
final pretty-print, whose failure falls back to exactly this concatenation):
declaration, root open tag, header, resolved fragments, root close tag. -/
def assembleFinalParts (stage : List Char → Option (List Char))
    (origHeader : List Char) (store : List (List Char × List Char))
    (kept : List (List Char)) (rt : List Char) : List (List Char) :=
  xmlDeclLine :: rootOpenTag rt :: headerStageResult stage origHeader ::
    ((reconstructEntries store kept).fragments ++ [rootCloseTag rt])

/- ---------------------------------------------------------------------------
Oracle Gateway response normalization (`call_gemini_api`, lines 306-324)
--------------------------------------------------------------------------- -/

/-- Three backticks, the code-fence marker. -/
def fence : List Char := "```".data

/-- The string `"xml"`, the fence language tag (matched case-insensitively). -/
def xmlWord : List Char := "xml".data

/-- Model of `re.sub(r"^```xml\s*", "", t, flags=re.IGNORECASE)` (line 308). -/
def stripFenceXml (l : List Char) : List Char :=
  if fence.isPrefixOf l ∧ ((l.drop 3).take 3).map Char.toLower = xmlWord then
    (l.drop 6).dropWhile isWS
  else l

/-- Model of `re.sub(r"^```\s*", "", t)` (line 309). -/
def stripFencePlain (l : List Char) : List Char :=
  if fence.isPrefixOf l then (l.drop 3).dropWhile isWS else l

/-- Model of `re.sub(r"\s*```$", "", t)` (line 310): `$` matches at the end
or just before one final newline; the greedy `\s*` also removes the
whitespace run preceding the closing fence. -/
def stripFenceEnd (l : List Char) : List Char :=
  let split : List Char × List Char :=
    match l.getLast? with
    | some c => if c = '\n' then (l.dropLast, ['\n']) else (l, [])
    | none => (l, [])
  if fence.isSuffixOf split.1 then
    stripRight (split.1.take (split.1.length - 3)) ++ split.2
  else l

/-- Lines 306-311: strip, remove a leading xml / plain code fence, remove a
trailing fence, strip again. -/
def normalizeResponse (raw : List Char) : List Char :=
  pyStrip (stripFenceEnd (stripFencePlain (stripFenceXml (pyStrip raw))))

/-- The string `"<datafile>"`. -/
def datafilePrefix : List Char := "<datafile>".data

/-- Line 313: `text_response.startswith(("<?xml", "<datafile>"))`. -/
def startsWithPreamble (l : List Char) : Bool :=
  xmlDeclPrefix.isPrefixOf l || datafilePrefix.isPrefixOf l

/-- Outcome of the structural check of `call_gemini_api` (lines 306-324):
`valid` carries the text returned to the caller; `invalidStart` carries the
text written to `invalid_ai_response_start.xml` before `None` is returned
(the call is not retried). -/
inductive AiCheck where
  | valid (text : List Char)
  | invalidStart (saved : List Char)
deriving DecidableEq

/-- Lines 306-324 of `call_gemini_api`, after a textual response arrived. -/
def checkAiResponse (raw : List Char) : AiCheck :=
  let t := normalizeResponse raw
  if startsWithPreamble t then .valid t else .invalidStart t

/- ---------------------------------------------------------------------------
`sanitize_filename` (lines 468-490)
--------------------------------------------------------------------------- -/

/-- Reserved filesystem characters `[<>:"|?*]` (line 471). -/
def forbiddenPunct : List Char := "<>:\"|?*".data

/-- Control characters `[\x00-\x1f\x7f]` (line 472). -/
def isCtrl (c : Char) : Bool := decide (c.toNat ≤ 31) || decide (c.toNat = 127)

/-- Fuel-driven scanner behind `subWsRuns1`. -/
def subWsRuns1Aux : Nat → List Char → List Char
  | 0, l => l
  | _ + 1, [] => []
  | fuel + 1, a :: t =>
    if isWS a then ' ' :: subWsRuns1Aux fuel (t.dropWhile isWS)
    else a :: subWsRuns1Aux fuel t

/-- Model of `re.sub(r'\s+', ' ', s)` (line 473): every whitespace run is
replaced by a single space. -/
def subWsRuns1 (l : List Char) : List Char := subWsRuns1Aux l.length l

/-- Python `s.rstrip('. ')` (line 474). -/
def rstripDotSpace (l : List Char) : List Char :=
  (l.reverse.dropWhile (fun c => c = '.' || c = ' ')).reverse

/-- UTF-8 byte length, `len(s.encode('utf-8'))`. -/
def byteLen (l : List Char) : Nat := (l.map Char.utf8Size).sum

/-- Helper for `splitext`: split at the last dot (ignoring the leading-dots
rule); `(whole, [])` when no dot occurs. -/
def extSplit : List Char → List Char × List Char
  | [] => ([], [])
  | c :: t =>
    let pq := extSplit t
    if pq.2 = [] then
      if c = '.' then ([], c :: t) else (c :: t, [])
    else (c :: pq.1, pq.2)

/-- Model of `os.path.splitext` for a separator-free name: split at the last
dot, except that a name whose characters before that dot are all dots has no
extension. -/
def splitext (l : List Char) : List Char × List Char :=
  let pq := extSplit l
  if pq.2 ≠ [] ∧ pq.1.any (fun c => c ≠ '.') then pq else (l, [])

/-- Python `bytes[:c]` upper bound: a negative slice index counts from the
end (`max(len + c, 0)`, here by truncated `Nat` subtraction). -/
def sliceBound (len : Nat) (c : Int) : Nat :=
  if 0 ≤ c then c.toNat else len - c.natAbs

/-- Model of `name_bytes[:k].decode('utf-8', 'ignore')`: keep the maximal prefix of
characters whose UTF-8 encodings fit completely within `k` bytes (a character
cut in half by the byte slice is dropped by `'ignore'`). -/
def takeBytes (k : Nat) : List Char → List Char
  | [] => []
  | c :: t => if c.utf8Size ≤ k then c :: takeBytes (k - c.utf8Size) t else []

/-- The constant `MAX_LEN_BYTES` (line 475). -/
def maxLenBytes : Nat := 200

/-- The Windows reserved device names (lines 482-484). -/
def reservedNames : List (List Char) :=
  ["CON".data, "PRN".data, "AUX".data, "NUL".data,
   "COM1".data, "COM2".data, "COM3".data, "COM4".data, "COM5".data,
   "COM6".data, "COM7".data, "COM8".data, "COM9".data,
   "LPT1".data, "LPT2".data, "LPT3".data, "LPT4".data, "LPT5".data,
   "LPT6".data, "LPT7".data, "LPT8".data, "LPT9".data]

/-- Steps of lines 470-474: separator replacement, reserved and control
character removal, whitespace collapsing plus strip, trailing dot/space
removal. -/
def sanitizeCleanPhase (f : List Char) : List Char :=
  let s1 := f.map (fun c => if c = '/' ∨ c = '\\' then '-' else c)
  let s2 := s1.filter (fun c => !(forbiddenPunct.contains c))
  let s3 := s2.filter (fun c => !(isCtrl c))
  rstripDotSpace (pyStrip (subWsRuns1 s3))

/-- The byte-cap truncation step (lines 475-481). -/
def truncateStep (s : List Char) : List Char :=
  if maxLenBytes < byteLen s then
    let pq := splitext s
    let cutoff : Int := (maxLenBytes : Int) - (byteLen pq.2 : Int) - 1
    takeBytes (sliceBound (byteLen pq.1) cutoff) pq.1 ++ '~' :: pq.2
  else s

/-- The fallback name `"Filtered_DAT_File.dat"` (line 489). -/
def fallbackFilename : List Char := "Filtered_DAT_File.dat".data

/-- The extension `".dat"`. -/
def datExt : List Char := ".dat".data

/-- Model of `sanitize_filename` (lines 468-490). -/
def sanitizeFilename (f : List Char) : List Char :=
  let s6 := truncateStep (sanitizeCleanPhase f)
  let s7 := if reservedNames.contains ((splitext s6).1.map Char.toUpper)
            then '_' :: s6 else s6
  if s7 = [] ∨ s7.map Char.toLower = datExt then fallbackFilename else s7

/-- All characters of `l` are whitespace. -/
def allWS (l : List Char) : Prop := ∀ c ∈ l, isWS c

/-- A character acceptable in a sanitized filename: not a reserved
filesystem character, not a path separator, not a control character. -/
abbrev goodChar (c : Char) : Prop :=
  c ∉ forbiddenPunct ∧ c ≠ '/' ∧ c ≠ '\\' ∧ isCtrl c = false

example : sanitizeFilename ("Sega - Mega Drive (GeminiAKNF 1.0.15).dat".data) =
    "Sega - Mega Drive (GeminiAKNF 1.0.15).dat".data := by decide

example : sanitizeFilename ("CON.dat".data) = "_CON.dat".data := by decide

example : checkAiResponse ("```xml\n<datafile>x</datafile>\n```".data) =
    .valid ("<datafile>x</datafile>".data) := by decide

/- ===========================================================================
Generic whitespace / strip lemmas.
=========================================================================== -/

theorem dropWhile_head_false {p : Char → Bool} {l t : List Char} {c : Char}
    (h : l.dropWhile p = c :: t) : p c = false := by
  have hh := List.head?_dropWhile_not p l
  rw [h] at hh
  simpa using hh

theorem dropWhile_idem {p : Char → Bool} (l : List Char) :
    (l.dropWhile p).dropWhile p = l.dropWhile p := by
  cases h : l.dropWhile p with
  | nil => rfl
  | cons c t =>
    have hc : p c = false := dropWhile_head_false h
    exact List.dropWhile_cons_of_neg (by simp [hc])

theorem stripLeft_head_false {l t : List Char} {c : Char}
    (h : stripLeft l = c :: t) : isWS c = false := dropWhile_head_false h

theorem stripRight_prefix_self (l : List Char) : stripRight l <+: l := by
  have h := List.dropWhile_suffix (l := l.reverse) isWS
  have h2 : (l.reverse.dropWhile isWS).reverse <+: l.reverse.reverse :=
    List.reverse_prefix.mpr h
  rwa [List.reverse_reverse] at h2

theorem stripRight_idem (l : List Char) :
    stripRight (stripRight l) = stripRight l := by
  unfold stripRight
  rw [List.reverse_reverse, dropWhile_idem]

theorem stripRight_getLast_false {l : List Char} {c : Char}
    (h : (stripRight l).getLast? = some c) : isWS c = false := by
  unfold stripRight at h
  rw [List.getLast?_reverse] at h
  cases hd : l.reverse.dropWhile isWS with
  | nil => rw [hd] at h; simp at h
  | cons x xs =>
    rw [hd] at h
    simp only [List.head?_cons, Option.some.injEq] at h
    subst h
    exact dropWhile_head_false hd

theorem pyStrip_head_false {l t : List Char} {c : Char}
    (h : pyStrip l = c :: t) : isWS c = false := by
  unfold pyStrip at h
  have hp : stripRight (stripLeft l) <+: stripLeft l := stripRight_prefix_self _
  rw [h] at hp
  obtain ⟨r, hr⟩ := hp
  have hcl : stripLeft l = c :: (t ++ r) := by rw [← hr]; simp
  exact stripLeft_head_false hcl

theorem pyStrip_getLast_false {l : List Char} {c : Char}
    (h : (pyStrip l).getLast? = some c) : isWS c = false :=
  stripRight_getLast_false h

theorem pyStrip_idem (l : List Char) : pyStrip (pyStrip l) = pyStrip l := by
  unfold pyStrip
  have h1 : stripLeft (stripRight (stripLeft l)) = stripRight (stripLeft l) := by
    cases h : stripRight (stripLeft l) with
    | nil => rfl
    | cons c t =>
      have hp : stripRight (stripLeft l) <+: stripLeft l := stripRight_prefix_self _
      rw [h] at hp
      obtain ⟨r, hr⟩ := hp
      have hcl : stripLeft l = c :: (t ++ r) := by rw [← hr]; simp
      have hc : isWS c = false := stripLeft_head_false hcl
      exact List.dropWhile_cons_of_neg (by simp [hc])
  rw [h1, stripRight_idem]

theorem pyStrip_decomp (l : List Char) :
    ∃ w1 w2, allWS w1 ∧ allWS w2 ∧ l = w1 ++ pyStrip l ++ w2 := by
  have key : ∀ u : List Char,
      u = (u.reverse.dropWhile isWS).reverse ++ (u.reverse.takeWhile isWS).reverse := by
    intro u
    conv_lhs => rw [← List.reverse_reverse u,
      ← List.takeWhile_append_dropWhile (p := isWS) (l := u.reverse)]
    rw [List.reverse_append]
  refine ⟨l.takeWhile isWS, ((stripLeft l).reverse.takeWhile isWS).reverse, ?_, ?_, ?_⟩
  · intro c hc; exact List.mem_takeWhile_imp hc
  · intro c hc; rw [List.mem_reverse] at hc; exact List.mem_takeWhile_imp hc
  · unfold pyStrip stripRight
    rw [List.append_assoc, ← key (stripLeft l)]
    unfold stripLeft
    rw [List.takeWhile_append_dropWhile]

theorem infix_dropWhile {p : Char → Bool} {m l : List Char} {c : Char}
    (hm : m.head? = some c) (hc : p c = false) (h : m <:+: l) :
    m <:+: l.dropWhile p := by
  induction l with
  | nil => simpa using h
  | cons a t ih =>
    by_cases hpa : p a
    · rw [List.dropWhile_cons_of_pos hpa]
      rcases List.infix_cons_iff.mp h with hpre | hinf
      · cases m with
        | nil => simp at hm
        | cons c0 m0 =>
          simp only [List.head?_cons, Option.some.injEq] at hm
          obtain ⟨r, hr⟩ := hpre
          simp only [List.cons_append, List.cons.injEq] at hr
          rw [hm] at hr
          rw [hr.1] at hc
          rw [hpa] at hc
          exact absurd hc (by simp)
      · exact ih hinf
    · rw [List.dropWhile_cons_of_neg hpa]
      exact h

theorem infix_stripLeft {m l : List Char} {c : Char} (hm : m.head? = some c)
    (hc : isWS c = false) (h : m <:+: l) : m <:+: stripLeft l :=
  infix_dropWhile hm hc h

theorem infix_stripRight {m l : List Char} {c : Char}
    (hm : m.getLast? = some c) (hc : isWS c = false) (h : m <:+: l) :
    m <:+: stripRight l := by
  have hrev : m.reverse <:+: l.reverse.dropWhile isWS := by
    apply infix_dropWhile (c := c)
    · rw [List.head?_reverse]; exact hm
    · exact hc
    · exact List.reverse_infix.mpr h
  have h2 : m.reverse.reverse <:+: (l.reverse.dropWhile isWS).reverse :=
    List.reverse_infix.mpr hrev
  rwa [List.reverse_reverse] at h2

theorem infix_pyStrip {m l : List Char} {c d : Char} (hmh : m.head? = some c)
    (hch : isWS c = false) (hml : m.getLast? = some d) (hcl : isWS d = false)
    (h : m <:+: l) : m <:+: pyStrip l :=
  infix_stripRight hml hcl (infix_stripLeft hmh hch h)

theorem marker_infix_strip_append (a : List Char) :
    aknfMarker <:+: pyStrip (a ++ ' ' :: aknfMarker) := by
  apply infix_pyStrip (c := '(') (d := ')')
  · decide
  · decide
  · decide
  · decide
  · exact ⟨a ++ [' '], [], by simp⟩

/- ===========================================================================
C3: idempotence of the description-field mutation.
=========================================================================== -/

theorem mutateDescText_marker {t : Option (List Char)}
    (h : aknfMarker <:+: pyStrip (t.getD [])) : mutateDescText t = t := by
  unfold mutateDescText
  rw [if_pos h]

theorem mutateDescText_idem (t : Option (List Char)) :
    mutateDescText (mutateDescText t) = mutateDescText t := by
  by_cases h : aknfMarker <:+: pyStrip (t.getD [])
  · rw [mutateDescText_marker h, mutateDescText_marker h]
  · have h1 : mutateDescText t =
        some (pyStrip (pyStrip (t.getD []) ++ ' ' :: aknfMarker)) := by
      unfold mutateDescText
      rw [if_neg h]
    rw [h1]
    apply mutateDescText_marker
    simp only [Option.getD_some]
    rw [pyStrip_idem]
    exact marker_infix_strip_append _

theorem descStep_idem (ch : List XmlNode) : descStep (descStep ch) = descStep ch := by
  induction ch with
  | nil => decide
  | cons n t ih =>
    by_cases h : n.tag == descriptionTag
    · have e1 : descStep (n :: t) = ⟨n.tag, mutateDescText n.text⟩ :: t := by
        conv_lhs => unfold descStep
        rw [if_pos h]
      rw [e1]
      conv_lhs => unfold descStep
      have h2 : ((⟨n.tag, mutateDescText n.text⟩ : XmlNode).tag == descriptionTag) = true := h
      rw [if_pos h2, mutateDescText_idem]
    · have e1 : descStep (n :: t) = n :: descStep t := by
        conv_lhs => unfold descStep
        rw [if_neg h]
      rw [e1]
      conv_lhs => unfold descStep
      rw [if_neg h, ih]

/-- C3: the header-description mutation is idempotent on the provenance
marker.  A description text that already contains `"(GeminiAKNF)"` is left
unchanged by the mutation, and applying the description mutation twice to a
header's children yields the same result as applying it once. -/
theorem claim_C3 :
    (∀ t : Option (List Char), aknfMarker <:+: t.getD [] → mutateDescText t = t) ∧
    (∀ ch : List XmlNode, descStep (descStep ch) = descStep ch) := by
  constructor
  · intro t h
    exact mutateDescText_marker
      (infix_pyStrip (c := '(') (d := ')') (by decide) (by decide) (by decide)
        (by decide) h)
  · exact descStep_idem

theorem claim_C3_witness :
    aknfMarker <:+: ("Nintendo Game Boy DAT (GeminiAKNF)".data : List Char) ∧
    mutateDescText (some ("Nintendo Game Boy DAT (GeminiAKNF)".data)) =
      some ("Nintendo Game Boy DAT (GeminiAKNF)".data) :=
  ⟨by decide, claim_C3.1 _ (by decide)⟩

/- ===========================================================================
C7: the Catalog Store keys records by name, later records overwrite.
=========================================================================== -/

theorem find?_mapUpdate_ne (t : List (List Char × List Char)) (k k' : List Char)
    (v : List Char) (hne : k' ≠ k) :
    (t.map (fun p => if p.1 == k then (p.1, v) else p)).find?
        (fun p => p.1 == k') =
      t.find? (fun p => p.1 == k') := by
  induction t with
  | nil => rfl
  | cons p t ih =>
    have hfst : ((if p.1 == k then (p.1, v) else p) : List Char × List Char).1 =
        p.1 := by
      by_cases hpk : p.1 == k
      · rw [if_pos hpk]
      · rw [if_neg hpk]
    simp only [List.map_cons]
    by_cases hpk' : p.1 == k'
    · have hpkne : ¬(p.1 == k) := by
        simp only [beq_iff_eq] at hpk' ⊢
        rw [hpk']
        exact fun hh => hne hh
      rw [if_neg hpkne]
      rw [List.find?_cons_of_pos _ (by simpa using hpk'),
        List.find?_cons_of_pos _ (by simpa using hpk')]
    · have hcond : ¬(((if p.1 == k then (p.1, v) else p) : List Char × List Char).1 == k') := by
        rw [hfst]
        exact fun hh => hpk' hh
      rw [List.find?_cons_of_neg _ (by simpa using hcond),
        List.find?_cons_of_neg _ (by simpa using hpk')]
      exact ih

theorem pyDictGet_mapUpdate_self (t : List (List Char × List Char)) (k : List Char)
    (v : List Char) (hany : t.any (fun p => p.1 == k)) :
    pyDictGet (t.map (fun p => if p.1 == k then (p.1, v) else p)) k = some v := by
  induction t with
  | nil => simp at hany
  | cons p t ih =>
    simp only [List.any_cons, Bool.or_eq_true] at hany
    unfold pyDictGet
    simp only [List.map_cons]
    by_cases hpk : p.1 == k
    · rw [if_pos hpk]
      rw [List.find?_cons_of_pos _ (by simpa using hpk)]
      simp
    · rw [if_neg hpk]
      rw [List.find?_cons_of_neg _ (by simpa using hpk)]
      rcases hany with hh | hany2
      · exact absurd hh hpk
      · exact ih hany2

theorem pyDictGet_insert (d : List (List Char × List Char)) (k k' : List Char)
    (v : List Char) :
    pyDictGet (pyDictInsert d k v) k' =
      if k' = k then some v else pyDictGet d k' := by
  unfold pyDictInsert
  by_cases hany : d.any (fun p => p.1 == k)
  · rw [if_pos hany]
    by_cases hk' : k' = k
    · subst hk'
      rw [if_pos rfl]
      exact pyDictGet_mapUpdate_self d k' v hany
    · rw [if_neg hk']
      unfold pyDictGet
      rw [find?_mapUpdate_ne d k k' v hk']
  · rw [if_neg hany]
    unfold pyDictGet
    rw [List.find?_append]
    by_cases hk' : k' = k
    · subst hk'
      have hnone : d.find? (fun p => p.1 == k') = none := by
        rw [List.find?_eq_none]
        intro x hx hpx
        exact hany (List.any_eq_true.mpr ⟨x, hx, hpx⟩)
      rw [hnone]
      simp [if_pos rfl]
    · have h2 : List.find? (fun p => p.1 == k') [(k, v)] = none := by
        simp only [List.find?_cons, List.find?_nil]
        have : ¬((k : List Char) == k') := by
          simp only [beq_iff_eq]
          exact fun hh => hk' hh.symm
        simp [this]
      rw [h2, if_neg hk']
      simp

theorem buildGamesData_get (entries : List (List Char × List Char))
    (d : List (List Char × List Char)) (k : List Char) (hk : k ≠ []) :
    pyDictGet (entries.foldl
        (fun d e => if e.1 == [] then d else pyDictInsert d e.1 e.2) d) k =
      match entries.reverse.find? (fun e => e.1 == k) with
      | some e => some e.2
      | none => pyDictGet d k := by
  induction entries generalizing d with
  | nil => simp
  | cons e t ih =>
    simp only [List.foldl_cons, List.reverse_cons, List.find?_append]
    rw [ih]
    cases hf : t.reverse.find? (fun e => e.1 == k) with
    | some x => simp
    | none =>
      simp only [Option.none_or]
      by_cases hek : e.1 == k
      · have he : ¬(e.1 == []) := by
          simp only [beq_iff_eq] at hek ⊢
          rw [hek]
          exact hk
        rw [if_neg he]
        rw [pyDictGet_insert]
        have hkk : k = e.1 := by
          simp only [beq_iff_eq] at hek
          exact hek.symm
        rw [if_pos hkk]
        simp [List.find?_cons, hek]
      · have h2 : List.find? (fun p => p.1 == k) [e] = none := by
          simp [List.find?_cons, hek]
        rw [h2]
        by_cases he : e.1 == []
        · rw [if_pos he]
        · rw [if_neg he, pyDictGet_insert]
          have : ¬(k = e.1) := by
            simp only [beq_iff_eq] at hek
            exact fun hh => hek hh.symm
          rw [if_neg this]

/-- C7: in the Catalog Store the name string is the sole identity key: when
the input presents two entry records carrying the same name, the later record
silently overwrites the earlier one, so the built store resolves that name to
the later record's fragment. -/
theorem claim_C7 (pre mid post : List (List Char × List Char)) (name : List Char)
    (f g : List Char) (hname : name ≠ [])
    (hpost : ∀ p ∈ post, p.1 ≠ name) :
    pyDictGet (buildGamesData (pre ++ (name, f) :: mid ++ (name, g) :: post))
      name = some g := by
  unfold buildGamesData
  rw [buildGamesData_get _ _ _ hname]
  have hrev : (pre ++ (name, f) :: mid ++ (name, g) :: post).reverse =
      post.reverse ++ ((name, g) :: (mid.reverse ++ (name, f) :: pre.reverse)) := by
    simp
  rw [hrev, List.find?_append]
  have hnone : post.reverse.find? (fun e => e.1 == name) = none := by
    rw [List.find?_eq_none]
    intro x hx hpx
    rw [List.mem_reverse] at hx
    exact hpost x hx (by simpa using hpx)
  rw [hnone]
  simp [List.find?_cons]

theorem claim_C7_witness :
    ("Tetris".data : List Char) ≠ [] ∧
    (∀ p ∈ ([] : List (List Char × List Char)), p.1 ≠ "Tetris".data) ∧
    pyDictGet (buildGamesData
        [("Tetris".data, "<game name=\"Tetris\" rev=\"1\"/>".data),
         ("Mario".data, "<game name=\"Mario\"/>".data),
         ("Tetris".data, "<game name=\"Tetris\" rev=\"2\"/>".data)])
      ("Tetris".data) = some ("<game name=\"Tetris\" rev=\"2\"/>".data) :=
  ⟨by decide, by simp,
    claim_C7 [] [("Mario".data, "<game name=\"Mario\"/>".data)] [] ("Tetris".data)
      ("<game name=\"Tetris\" rev=\"1\"/>".data)
      ("<game name=\"Tetris\" rev=\"2\"/>".data) (by decide) (by simp)⟩

/- ===========================================================================
Sorting / deduplication lemmas and the selection-order claims.
=========================================================================== -/

theorem uniqueSorted_sorted (l : List (List Char)) :
    List.Sorted (fun a b => a ≤ b) (uniqueSorted l) :=
  List.sorted_insertionSort _ _

theorem uniqueSorted_nodup (l : List (List Char)) : (uniqueSorted l).Nodup :=
  ((List.perm_insertionSort _ _).nodup_iff).mpr l.nodup_dedup

theorem uniqueSorted_mem (l : List (List Char)) (x : List Char) :
    x ∈ uniqueSorted l ↔ x ∈ l := by
  unfold uniqueSorted
  rw [(List.perm_insertionSort _ _).mem_iff, List.mem_dedup]

theorem uniqueSorted_eq_of_mem_iff {l₁ l₂ : List (List Char)}
    (h : ∀ x, x ∈ l₁ ↔ x ∈ l₂) : uniqueSorted l₁ = uniqueSorted l₂ := by
  apply List.eq_of_perm_of_sorted ?_ (uniqueSorted_sorted l₁) (uniqueSorted_sorted l₂)
  apply (List.perm_ext_iff_of_nodup (uniqueSorted_nodup l₁) (uniqueSorted_nodup l₂)).mpr
  intro x
  rw [uniqueSorted_mem, uniqueSorted_mem]
  exact h x

/-- C2: the oracle's names are deduplicated by set semantics and sorted
lexicographically before reconciliation: the emitted fragment sequence (and
the tallies) depend only on the set of names, the resolved name list is
sorted and duplicate-free, and the concrete oracle output `["B".data, "A".data, "A".data]`
against a store holding `A` and `B` emits A's fragment and then B's. -/
theorem claim_C2 (store : List (List Char × List Char)) (l₁ l₂ : List (List Char))
    (h : ∀ x, x ∈ l₁ ↔ x ∈ l₂) :
    reconstructEntries store l₁ = reconstructEntries store l₂ ∧
    List.Sorted (fun a b => a ≤ b) (uniqueSorted l₁) ∧
    (uniqueSorted l₁).Nodup ∧
    (reconstructEntries
        [("A".data, "<game name=\"A\"/>".data), ("B".data, "<game name=\"B\"/>".data)]
        ["B".data, "A".data, "A".data]).fragments =
      ["<game name=\"A\"/>".data, "<game name=\"B\"/>".data] := by
  refine ⟨?_, uniqueSorted_sorted l₁, uniqueSorted_nodup l₁, by decide⟩
  unfold reconstructEntries
  rw [uniqueSorted_eq_of_mem_iff h]

theorem claim_C2_witness :
    (∀ x : List Char, x ∈ (["B".data, "A".data, "A".data] : List (List Char)) ↔
      x ∈ (["A".data, "B".data] : List (List Char))) ∧
    reconstructEntries
        [("A".data, "<game name=\"A\"/>".data), ("B".data, "<game name=\"B\"/>".data)]
        ["B".data, "A".data, "A".data] =
      reconstructEntries
        [("A".data, "<game name=\"A\"/>".data), ("B".data, "<game name=\"B\"/>".data)]
        ["A".data, "B".data] := by
  have hmem : ∀ x : List Char, x ∈ (["B".data, "A".data, "A".data] : List (List Char)) ↔
      x ∈ (["A".data, "B".data] : List (List Char)) := by
    intro x
    simp only [List.mem_cons, List.not_mem_nil, or_false]
    tauto
  exact ⟨hmem, (claim_C2 _ _ _ hmem).1⟩

/-- C1: every selected name that resolves in the Catalog Store contributes to
the Output Document a fragment that is byte-identical to the stored record
apart from surrounding whitespace (the hypothesis `stripXmlDecl frag = frag`
records that serialized element fragments never begin with an XML
declaration, which holds of everything `parse_and_compress_dat` stores);
reconstruction never edits or reformats the retained content. -/
theorem claim_C1 (store : List (List Char × List Char)) (kept : List (List Char))
    (name : List Char) (frag : List Char)
    (hstore : pyDictGet store name = some frag)
    (hdecl : stripXmlDecl frag = frag)
    (hmem : name ∈ kept) :
    ∃ emitted ∈ (reconstructEntries store kept).fragments,
      ∃ w1 w2, allWS w1 ∧ allWS w2 ∧ frag = w1 ++ emitted ++ w2 := by
  refine ⟨cleanFragment frag, ?_, ?_⟩
  · unfold reconstructEntries
    simp only [List.mem_filterMap]
    exact ⟨name, (uniqueSorted_mem kept name).mpr hmem, by rw [hstore]; rfl⟩
  · unfold cleanFragment
    rw [hdecl]
    exact pyStrip_decomp frag

theorem claim_C1_witness :
    pyDictGet [("A".data, "<game name=\"A\"><rom/></game>".data)] ("A".data) =
      some ("<game name=\"A\"><rom/></game>".data) ∧
    stripXmlDecl ("<game name=\"A\"><rom/></game>".data) =
      "<game name=\"A\"><rom/></game>".data ∧
    ("A".data : List Char) ∈ (["A".data] : List (List Char)) ∧
    ∃ emitted ∈ (reconstructEntries
        [("A".data, "<game name=\"A\"><rom/></game>".data)] ["A".data]).fragments,
      ∃ w1 w2, allWS w1 ∧ allWS w2 ∧
        ("<game name=\"A\"><rom/></game>".data : List Char) =
          w1 ++ emitted ++ w2 :=
  ⟨by decide, by decide, by decide,
    claim_C1 [("A".data, "<game name=\"A\"><rom/></game>".data)] ["A".data]
      ("A".data) ("<game name=\"A\"><rom/></game>".data)
      (by decide) (by decide) (by decide)⟩

theorem length_filterMap_eq_filter {α β : Type} (f : α → Option β) (l : List α) :
    (l.filterMap f).length = (l.filter (fun a => (f a).isSome)).length := by
  induction l with
  | nil => rfl
  | cons a t ih =>
    cases h : f a with
    | none => simp [List.filterMap_cons, h, List.filter_cons, ih]
    | some b => simp [List.filterMap_cons, h, List.filter_cons, ih]

theorem length_filter_add_length_filter_isNone (store : List (List Char × List Char))
    (l : List (List Char)) :
    (l.filter (fun n => (pyDictGet store n).isSome)).length +
      (l.filter (fun n => (pyDictGet store n).isNone)).length = l.length := by
  induction l with
  | nil => rfl
  | cons a t ih =>
    cases h : pyDictGet store a with
    | none => simp [List.filter_cons, h]; omega
    | some v => simp [List.filter_cons, h]; omega

/-- C8: a selected name with no Catalog Store match contributes no fragment,
is tallied as an omission, and reconstruction continues: the found and
missing tallies partition the resolved name list, each emitted fragment is
the cleaned image of some stored record (nothing is synthesized), and in
particular every unresolved name is counted in `missingCount`. -/
theorem claim_C8 (store : List (List Char × List Char)) (kept : List (List Char)) :
    (reconstructEntries store kept).missingCount =
      ((uniqueSorted kept).filter (fun n => (pyDictGet store n).isNone)).length ∧
    (reconstructEntries store kept).foundCount +
        (reconstructEntries store kept).missingCount =
      (uniqueSorted kept).length ∧
    (reconstructEntries store kept).fragments.length =
      (reconstructEntries store kept).foundCount ∧
    ∀ e ∈ (reconstructEntries store kept).fragments,
      ∃ n frag, pyDictGet store n = some frag ∧ e = cleanFragment frag := by
  refine ⟨rfl, ?_, ?_, ?_⟩
  · exact length_filter_add_length_filter_isNone store (uniqueSorted kept)
  · unfold reconstructEntries
    simp only
    rw [length_filterMap_eq_filter]
    congr 1
    apply List.filter_congr
    intro n hn
    cases h : pyDictGet store n <;> simp [h]
  · intro e he
    unfold reconstructEntries at he
    simp only [List.mem_filterMap] at he
    obtain ⟨n, hn, hmap⟩ := he
    cases h : pyDictGet store n with
    | none => rw [h] at hmap; simp at hmap
    | some frag =>
      rw [h] at hmap
      simp only [Option.map_some', Option.some.injEq] at hmap
      exact ⟨n, frag, h, hmap.symm⟩

/- ===========================================================================
C5: gateway response normalization and the invalid-start failure path.
=========================================================================== -/

/-- C5 counterexample: for the oracle response ```` ```xml\nhello\n``` ````,
the text persisted to `invalid_ai_response_start.xml` is the normalized text
`"hello"`, which differs from the raw response — the code writes the
fence-stripped `text_response`, not the raw response. -/
theorem claim_C5_counterexample :
    checkAiResponse ("```xml\nhello\n```".data) = .invalidStart ("hello".data) ∧
    ("hello".data : List Char) ≠ "```xml\nhello\n```".data := by
  constructor
  · decide
  · decide

/-- C5 (amended): the gateway strips wrapping code fences and surrounding
whitespace; when the normalized text does not start with `"<?xml"` or
`"<datafile>"` the check fails, persisting exactly the normalized (not raw)
text, and no other outcome exists (in particular the call is not retried:
the check returns a definitive failure).  The normalized text carries no
surrounding whitespace. -/
theorem claim_C5_amended (raw : List Char) :
    (startsWithPreamble (normalizeResponse raw) = true ∧
      checkAiResponse raw = .valid (normalizeResponse raw)) ∨
    (startsWithPreamble (normalizeResponse raw) = false ∧
      checkAiResponse raw = .invalidStart (normalizeResponse raw)) := by
  unfold checkAiResponse
  by_cases h : startsWithPreamble (normalizeResponse raw)
  · left
    exact ⟨h, by simp [h]⟩
  · right
    refine ⟨by simpa using h, by simp [h]⟩

/- ===========================================================================
C9: provenance-tag removal and insertion position.
=========================================================================== -/

theorem firstTagIdx_eq_none_iff (tg : String) (l : List XmlNode) :
    firstTagIdx tg l = none ↔ ∀ n ∈ l, n.tag ≠ tg := by
  induction l with
  | nil => simp [firstTagIdx]
  | cons n t ih =>
    unfold firstTagIdx
    by_cases h : n.tag == tg
    · rw [if_pos h]
      simp only [beq_iff_eq] at h
      simp [h]
    · rw [if_neg h]
      simp only [beq_iff_eq] at h
      simp only [Option.map_eq_none', List.mem_cons]
      constructor
      · intro hn m hm
        rcases hm with hm | hm
        · rw [hm]; exact h
        · exact (ih.mp hn) m hm
      · intro hall
        exact ih.mpr (fun m hm => hall m (Or.inr hm))

theorem firstTagIdx_some_decomp (tg : String) (l : List XmlNode) (i : Nat)
    (h : firstTagIdx tg l = some i) :
    ∃ pre n post, l = pre ++ n :: post ∧ pre.length = i ∧ n.tag = tg ∧
      ∀ m ∈ pre, m.tag ≠ tg := by
  induction l generalizing i with
  | nil => simp [firstTagIdx] at h
  | cons n t ih =>
    unfold firstTagIdx at h
    by_cases hn : n.tag == tg
    · rw [if_pos hn] at h
      simp only [Option.some.injEq] at h
      subst h
      exact ⟨[], n, t, rfl, rfl, by simpa using hn, by simp⟩
    · rw [if_neg hn] at h
      cases ht : firstTagIdx tg t with
      | none => rw [ht] at h; simp at h
      | some j =>
        rw [ht] at h
        simp only [Option.map_some', Option.some.injEq] at h
        obtain ⟨pre, m, post, hdec, hlen, htag, hpre⟩ := ih j ht
        refine ⟨n :: pre, m, post, by rw [hdec]; simp, by simp [hlen, ← h], htag, ?_⟩
        intro x hx
        rcases List.mem_cons.mp hx with hx | hx
        · rw [hx]; simpa using hn
        · exact hpre x hx

theorem descStep_no_tag_iff (tg : String) (ch : List XmlNode)
    (htg : tg ≠ descriptionTag) :
    (∀ n ∈ descStep ch, n.tag ≠ tg) ↔ ∀ n ∈ ch, n.tag ≠ tg := by
  induction ch with
  | nil =>
    unfold descStep
    simp only [List.mem_singleton, List.not_mem_nil]
    constructor
    · intro _ n hn
      exact absurd hn (by simp)
    · intro _ n hn
      rw [hn]
      exact fun hh => htg hh.symm
  | cons n t ih =>
    by_cases h : n.tag == descriptionTag
    · have e1 : descStep (n :: t) = ⟨n.tag, mutateDescText n.text⟩ :: t := by
        conv_lhs => unfold descStep
        rw [if_pos h]
      rw [e1]
      simp only [List.mem_cons]
      constructor
      · intro hall m hm
        rcases hm with hm | hm
        · rw [hm]
          exact hall ⟨n.tag, mutateDescText n.text⟩ (Or.inl rfl)
        · exact hall m (Or.inr hm)
      · intro hall m hm
        rcases hm with hm | hm
        · rw [hm]
          exact hall n (Or.inl rfl)
        · exact hall m (Or.inr hm)
    · have e1 : descStep (n :: t) = n :: descStep t := by
        conv_lhs => unfold descStep
        rw [if_neg h]
      rw [e1]
      simp only [List.mem_cons]
      constructor
      · intro hall m hm
        rcases hm with hm | hm
        · exact hall m (Or.inl hm)
        · exact (ih.mp (fun x hx => hall x (Or.inr hx))) m hm
      · intro hall m hm
        rcases hm with hm | hm
        · exact hall m (Or.inl hm)
        · exact (ih.mpr (fun x hx => hall x (Or.inr hx))) m hm

theorem removeFirstAknf_no_tag_iff (tg : String) (ch : List XmlNode)
    (htg : tg ≠ aknfTagName) :
    (∀ n ∈ removeFirstAknf ch, n.tag ≠ tg) ↔ ∀ n ∈ ch, n.tag ≠ tg := by
  induction ch with
  | nil => simp [removeFirstAknf]
  | cons n t ih =>
    unfold removeFirstAknf
    by_cases h : n.tag == aknfTagName
    · rw [if_pos h]
      simp only [List.mem_cons]
      constructor
      · intro hall m hm
        rcases hm with hm | hm
        · rw [hm]
          have : n.tag = aknfTagName := by simpa using h
          rw [this]
          exact fun hh => htg hh.symm
        · exact hall m hm
      · intro hall m hm
        exact hall m (Or.inr hm)
    · rw [if_neg h]
      simp only [List.mem_cons]
      constructor
      · intro hall m hm
        rcases hm with hm | hm
        · exact hall m (Or.inl hm)
        · exact (ih.mp (fun x hx => hall x (Or.inr hx))) m hm
      · intro hall m hm
        rcases hm with hm | hm
        · exact hall m (Or.inl hm)
        · exact (ih.mpr (fun x hx => hall x (Or.inr hx))) m hm

theorem countTag_descStep_aknf (ch : List XmlNode) :
    countTag aknfTagName (descStep ch) = countTag aknfTagName ch := by
  induction ch with
  | nil => decide
  | cons n t ih =>
    unfold countTag at ih ⊢
    by_cases h : n.tag == descriptionTag
    · have e1 : descStep (n :: t) = ⟨n.tag, mutateDescText n.text⟩ :: t := by
        conv_lhs => unfold descStep
        rw [if_pos h]
      rw [e1]
      simp only [List.filter_cons]
      by_cases ha : n.tag == aknfTagName
      · simp [ha]
      · simp [ha]
    · have e1 : descStep (n :: t) = n :: descStep t := by
        conv_lhs => unfold descStep
        rw [if_neg h]
      rw [e1]
      simp only [List.filter_cons]
      by_cases ha : n.tag == aknfTagName
      · simp [ha, ih]
      · simp [ha, ih]

theorem countTag_removeFirstAknf (ch : List XmlNode) :
    countTag aknfTagName (removeFirstAknf ch) = countTag aknfTagName ch - 1 := by
  induction ch with
  | nil => rfl
  | cons n t ih =>
    unfold countTag at ih ⊢
    unfold removeFirstAknf
    by_cases h : n.tag == aknfTagName
    · rw [if_pos h]
      simp [List.filter_cons, h]
    · rw [if_neg h]
      simp [List.filter_cons, h, ih]

theorem countTag_insertAt_fresh (l : List XmlNode) (i : Nat) :
    countTag aknfTagName (insertAt l i freshAknfTag) =
      countTag aknfTagName l + 1 := by
  unfold insertAt countTag
  conv_rhs => rw [← List.take_append_drop i l]
  rw [List.filter_append, List.filter_append, List.filter_cons]
  have hf : (freshAknfTag.tag == aknfTagName) = true := by decide
  simp only [hf, if_true, List.length_append, List.length_cons]
  omega

theorem countTag_mutateHeader (ch : List XmlNode) :
    countTag aknfTagName (mutateHeaderChildren ch) =
      (countTag aknfTagName ch - 1) + 1 := by
  unfold mutateHeaderChildren
  rw [countTag_insertAt_fresh, countTag_removeFirstAknf, countTag_descStep_aknf]

theorem insertAt_after (pre post : List XmlNode) (n x : XmlNode) :
    insertAt (pre ++ n :: post) (pre.length + 1) x = (pre ++ [n]) ++ x :: post := by
  unfold insertAt
  have h1 : pre ++ n :: post = (pre ++ [n]) ++ post := by simp
  rw [h1, List.take_left' (by simp), List.drop_left' (by simp)]

theorem insertAt_before (pre post : List XmlNode) (x : XmlNode) :
    insertAt (pre ++ post) pre.length x = pre ++ x :: post := by
  unfold insertAt
  rw [List.take_left' rfl, List.drop_left' rfl]

theorem insertAt_end (l : List XmlNode) (x : XmlNode) :
    insertAt l l.length x = l ++ [x] := by
  unfold insertAt
  rw [List.take_length, List.drop_length]

/-- C9 counterexample: a header holding two prior `geminiaknf` tags keeps one
of them: after the mutation the header carries two `geminiaknf` children, not
exactly the single fresh one — only the first prior tag is removed. -/
theorem claim_C9_counterexample :
    countTag aknfTagName (mutateHeaderChildren
      [⟨aknfTagName, some ("old one".data)⟩,
       ⟨aknfTagName, some ("old two".data)⟩]) = 2 := by decide

/-- C9 (amended): the header mutation removes the first prior `geminiaknf`
tag (later duplicates survive, as the count equation records) and inserts one
fresh tag, immediately after the first `retool` tag when one is present,
otherwise immediately before the first `clrmamepro` tag when one is present,
otherwise at the end of the children. -/
theorem claim_C9_amended (ch : List XmlNode) :
    countTag aknfTagName (mutateHeaderChildren ch) =
      (countTag aknfTagName ch - 1) + 1 ∧
    ((∃ n ∈ ch, n.tag = retoolTag) →
      ∃ l r n, mutateHeaderChildren ch = l ++ freshAknfTag :: r ∧
        l.getLast? = some n ∧ n.tag = retoolTag ∧
        ∀ m ∈ l.dropLast, m.tag ≠ retoolTag) ∧
    ((∀ n ∈ ch, n.tag ≠ retoolTag) → (∃ n ∈ ch, n.tag = clrTag) →
      ∃ l r n, mutateHeaderChildren ch = l ++ freshAknfTag :: r ∧
        r.head? = some n ∧ n.tag = clrTag ∧ ∀ m ∈ l, m.tag ≠ clrTag) ∧
    ((∀ n ∈ ch, n.tag ≠ retoolTag) → (∀ n ∈ ch, n.tag ≠ clrTag) →
      (mutateHeaderChildren ch).getLast? = some freshAknfTag) := by
  have hres : mutateHeaderChildren ch =
      insertAt (removeFirstAknf (descStep ch))
        (aknfInsertIdx (removeFirstAknf (descStep ch))) freshAknfTag := rfl
  have htransfer : ∀ tg : String, tg ≠ descriptionTag → tg ≠ aknfTagName →
      ((∀ n ∈ removeFirstAknf (descStep ch), n.tag ≠ tg) ↔
        ∀ n ∈ ch, n.tag ≠ tg) := by
    intro tg h1 h2
    rw [removeFirstAknf_no_tag_iff tg (descStep ch) h2,
      descStep_no_tag_iff tg ch h1]
  refine ⟨countTag_mutateHeader ch, ?_, ?_, ?_⟩
  · intro hex
    have hne : ¬(∀ n ∈ removeFirstAknf (descStep ch), n.tag ≠ retoolTag) := by
      rw [htransfer retoolTag (by decide) (by decide)]
      intro hall
      obtain ⟨n, hn, htag⟩ := hex
      exact hall n hn htag
    cases hfi : firstTagIdx retoolTag (removeFirstAknf (descStep ch)) with
    | none => exact absurd ((firstTagIdx_eq_none_iff _ _).mp hfi) hne
    | some i =>
      obtain ⟨pre, rn, post, hdec, hlen, htag, hpre⟩ :=
        firstTagIdx_some_decomp _ _ _ hfi
      have hidx : aknfInsertIdx (removeFirstAknf (descStep ch)) = i + 1 := by
        unfold aknfInsertIdx
        rw [hfi]
      refine ⟨pre ++ [rn], post, rn, ?_, by simp, htag, ?_⟩
      · rw [hres, hidx, hdec, ← hlen, insertAt_after]
      · rw [List.dropLast_concat]
        exact hpre
  · intro hno hex
    have hnone : firstTagIdx retoolTag (removeFirstAknf (descStep ch)) = none := by
      rw [firstTagIdx_eq_none_iff]
      rw [htransfer retoolTag (by decide) (by decide)]
      exact hno
    have hne : ¬(∀ n ∈ removeFirstAknf (descStep ch), n.tag ≠ clrTag) := by
      rw [htransfer clrTag (by decide) (by decide)]
      intro hall
      obtain ⟨n, hn, htag⟩ := hex
      exact hall n hn htag
    cases hfi : firstTagIdx clrTag (removeFirstAknf (descStep ch)) with
    | none => exact absurd ((firstTagIdx_eq_none_iff _ _).mp hfi) hne
    | some i =>
      obtain ⟨pre, cn, post, hdec, hlen, htag, hpre⟩ :=
        firstTagIdx_some_decomp _ _ _ hfi
      have hidx : aknfInsertIdx (removeFirstAknf (descStep ch)) = i := by
        unfold aknfInsertIdx
        rw [hnone, hfi]
      refine ⟨pre, cn :: post, cn, ?_, by simp, htag, hpre⟩
      rw [hres, hidx, hdec, ← hlen]
      exact insertAt_before pre (cn :: post) freshAknfTag
  · intro hno1 hno2
    have hnone1 : firstTagIdx retoolTag (removeFirstAknf (descStep ch)) = none := by
      rw [firstTagIdx_eq_none_iff]
      rw [htransfer retoolTag (by decide) (by decide)]
      exact hno1
    have hnone2 : firstTagIdx clrTag (removeFirstAknf (descStep ch)) = none := by
      rw [firstTagIdx_eq_none_iff]
      rw [htransfer clrTag (by decide) (by decide)]
      exact hno2
    have hidx : aknfInsertIdx (removeFirstAknf (descStep ch)) =
        (removeFirstAknf (descStep ch)).length := by
      unfold aknfInsertIdx
      rw [hnone1, hnone2]
    rw [hres, hidx, insertAt_end]
    simp

theorem claim_C9_witness :
    (∃ n ∈ ([⟨retoolTag, none⟩, ⟨clrTag, none⟩] : List XmlNode),
      n.tag = retoolTag) ∧
    ∃ l r n, mutateHeaderChildren [⟨retoolTag, none⟩, ⟨clrTag, none⟩] =
        l ++ freshAknfTag :: r ∧
      l.getLast? = some n ∧ n.tag = retoolTag ∧
      ∀ m ∈ l.dropLast, m.tag ≠ retoolTag :=
  ⟨by decide,
    (claim_C9_amended [⟨retoolTag, none⟩, ⟨clrTag, none⟩]).2.1 (by decide)⟩

/- ===========================================================================
C10: header-stage failure falls back to the original header.
=========================================================================== -/

/-- C10: when the header parse/mutate/serialize stage fails (the abstract
`stage` returns `none`, modelling any exception of the `try` block of lines
360-418), reconstruction proceeds: the emitted header part is the original
header string unchanged apart from the surrounding-whitespace strip of line
420 (explicit whitespace decomposition), and the assembled document parts
still carry exactly the resolved entry fragments of the store and selection. -/
theorem claim_C10 (stage : List Char → Option (List Char))
    (origHeader : List Char) (store : List (List Char × List Char))
    (kept : List (List Char)) (rt : List Char)
    (hfail : stage origHeader = none) :
    headerStageResult stage origHeader = pyStrip origHeader ∧
    (∃ w1 w2, allWS w1 ∧ allWS w2 ∧
      origHeader = w1 ++ headerStageResult stage origHeader ++ w2) ∧
    assembleFinalParts stage origHeader store kept rt =
      xmlDeclLine :: rootOpenTag rt :: pyStrip origHeader ::
        ((reconstructEntries store kept).fragments ++ [rootCloseTag rt]) := by
  have h1 : headerStageResult stage origHeader = pyStrip origHeader := by
    unfold headerStageResult
    rw [hfail]
    rfl
  refine ⟨h1, ?_, ?_⟩
  · rw [h1]
    exact pyStrip_decomp origHeader
  · unfold assembleFinalParts
    rw [h1]

theorem claim_C10_witness :
    ((fun _ : List Char => (none : Option (List Char))) ("<header/>".data) =
      none) ∧
    headerStageResult (fun _ => none) ("<header/>".data) =
      pyStrip ("<header/>".data) ∧
    assembleFinalParts (fun _ => none) ("<header/>".data) [] []
        ("datafile".data) =
      xmlDeclLine :: rootOpenTag ("datafile".data) ::
        pyStrip ("<header/>".data) ::
        ((reconstructEntries [] []).fragments ++
          [rootCloseTag ("datafile".data)]) :=
  ⟨rfl, (claim_C10 (fun _ => none) ("<header/>".data) [] [] ("datafile".data)
      rfl).1,
    (claim_C10 (fun _ => none) ("<header/>".data) [] [] ("datafile".data)
      rfl).2.2⟩

/- ===========================================================================
C6: filename sanitization.
=========================================================================== -/

theorem byteLen_append (a b : List Char) :
    byteLen (a ++ b) = byteLen a + byteLen b := by
  unfold byteLen
  rw [List.map_append, List.sum_append]

theorem takeBytes_byteLen (k : Nat) (l : List Char) :
    byteLen (takeBytes k l) ≤ k := by
  induction l generalizing k with
  | nil => simp [takeBytes, byteLen]
  | cons c t ih =>
    unfold takeBytes
    by_cases h : c.utf8Size ≤ k
    · rw [if_pos h]
      unfold byteLen at ih ⊢
      simp only [List.map_cons, List.sum_cons]
      have := ih (k - c.utf8Size)
      omega
    · rw [if_neg h]
      simp [byteLen]

theorem takeBytes_prefix_self (k : Nat) (l : List Char) : takeBytes k l <+: l := by
  induction l generalizing k with
  | nil => simp [takeBytes]
  | cons c t ih =>
    unfold takeBytes
    by_cases h : c.utf8Size ≤ k
    · rw [if_pos h]
      obtain ⟨r, hr⟩ := ih (k - c.utf8Size)
      exact ⟨r, by rw [List.cons_append, hr]⟩
    · rw [if_neg h]
      exact List.nil_prefix

theorem extSplit_append (l : List Char) :
    (extSplit l).1 ++ (extSplit l).2 = l := by
  induction l with
  | nil => rfl
  | cons c t ih =>
    unfold extSplit
    by_cases h2 : (extSplit t).2 = []
    · by_cases hc : c = '.'
      · simp [h2, hc]
      · simp [h2, hc]
    · simp only [h2, if_neg, ite_false]
      simp only [List.cons_append]
      rw [ih]

theorem extSplit_no_dot {l : List Char} (h : '.' ∉ l) : extSplit l = (l, []) := by
  induction l with
  | nil => rfl
  | cons c t ih =>
    simp only [List.mem_cons, not_or] at h
    have hc : ¬ c = '.' := fun hh => h.1 hh.symm
    unfold extSplit
    rw [ih h.2]
    simp [hc]

theorem extSplit_nil_no_dot {l : List Char} (h : (extSplit l).2 = []) :
    '.' ∉ l := by
  induction l with
  | nil => simp
  | cons c t ih =>
    by_cases h2 : (extSplit t).2 = []
    · by_cases hc : c = '.'
      · have he : extSplit (c :: t) = ([], c :: t) := by
          unfold extSplit
          simp [h2, hc]
        rw [he] at h
        simp at h
      · simp only [List.mem_cons, not_or]
        exact ⟨fun hh => hc hh.symm, ih h2⟩
    · have he : (extSplit (c :: t)).2 = (extSplit t).2 := by
        conv_lhs => unfold extSplit
        simp [h2]
      rw [he] at h
      exact absurd h h2

theorem extSplit_ext_shape (l : List Char) :
    (extSplit l).2 = [] ∨ ∃ e, (extSplit l).2 = '.' :: e ∧ '.' ∉ e := by
  induction l with
  | nil => left; rfl
  | cons c t ih =>
    unfold extSplit
    by_cases h2 : (extSplit t).2 = []
    · by_cases hc : c = '.'
      · right
        refine ⟨t, by simp [h2, hc], extSplit_nil_no_dot h2⟩
      · left
        simp [h2, hc]
    · rcases ih with hn | ⟨e, he, hde⟩
      · exact absurd hn h2
      · right
        exact ⟨e, by simp [h2, he], hde⟩

theorem splitext_append (l : List Char) :
    (splitext l).1 ++ (splitext l).2 = l := by
  simp only [splitext]
  split_ifs with h
  · exact extSplit_append l
  · simp

theorem splitext_ext_shape (l : List Char) :
    (splitext l).2 = [] ∨ ∃ e, (splitext l).2 = '.' :: e ∧ '.' ∉ e := by
  simp only [splitext]
  split_ifs with h
  · exact extSplit_ext_shape l
  · left; rfl

theorem extSplit_concat_tilde (x e : List Char) (he : '.' ∉ e) :
    extSplit (x ++ '~' :: '.' :: e) = (x ++ ['~'], '.' :: e) := by
  induction x with
  | nil =>
    simp only [List.nil_append]
    have h1 : extSplit ('.' :: e) = ([], '.' :: e) := by
      unfold extSplit
      rw [extSplit_no_dot he]
      simp
    unfold extSplit
    rw [h1]
    simp
  | cons c t ih =>
    simp only [List.cons_append]
    unfold extSplit
    rw [ih]
    simp

theorem splitext_concat_tilde (x e : List Char) (he : '.' ∉ e) :
    splitext (x ++ '~' :: '.' :: e) = (x ++ ['~'], '.' :: e) := by
  simp only [splitext]
  rw [extSplit_concat_tilde x e he]
  have hcond : (('.' :: e ≠ []) ∧ (x ++ ['~']).any (fun c => c ≠ '.')) := by
    refine ⟨by simp, ?_⟩
    rw [List.any_append]
    simp
  rw [if_pos hcond]

theorem mem_subWsRuns1Aux (fuel : Nat) (l : List Char) (c : Char)
    (h : c ∈ subWsRuns1Aux fuel l) : c ∈ l ∨ c = ' ' := by
  induction fuel generalizing l with
  | zero => exact Or.inl h
  | succ n ih =>
    cases l with
    | nil => simp [subWsRuns1Aux] at h
    | cons a t =>
      unfold subWsRuns1Aux at h
      by_cases ha : isWS a
      · rw [if_pos ha] at h
        rcases List.mem_cons.mp h with hc | hc
        · right; exact hc
        · rcases ih _ hc with hc2 | hc2
          · left
            exact List.mem_cons_of_mem a ((List.dropWhile_sublist _).subset hc2)
          · right; exact hc2
      · rw [if_neg ha] at h
        rcases List.mem_cons.mp h with hc | hc
        · left
          rw [hc]
          exact List.mem_cons_self a t
        · rcases ih _ hc with hc2 | hc2
          · left; exact List.mem_cons_of_mem a hc2
          · right; exact hc2

theorem rstripDotSpace_subset {l : List Char} {c : Char}
    (h : c ∈ rstripDotSpace l) : c ∈ l := by
  unfold rstripDotSpace at h
  rw [List.mem_reverse] at h
  have h2 := (List.dropWhile_sublist _).subset h
  rwa [List.mem_reverse] at h2

theorem pyStrip_subset {l : List Char} {c : Char} (h : c ∈ pyStrip l) : c ∈ l := by
  obtain ⟨w1, w2, _, _, hdec⟩ := pyStrip_decomp l
  rw [hdec]
  exact List.mem_append_left _ (List.mem_append_right _ h)

theorem truncateStep_subset {s : List Char} {c : Char} (h : c ∈ truncateStep s) :
    c ∈ s ∨ c = '~' := by
  unfold truncateStep at h
  by_cases hb : maxLenBytes < byteLen s
  · rw [if_pos hb] at h
    rw [List.mem_append] at h
    rcases h with h | h
    · left
      have h1 : c ∈ (splitext s).1 :=
        (takeBytes_prefix_self _ _).sublist.subset h
      rw [← splitext_append s]
      exact List.mem_append_left _ h1
    · rcases List.mem_cons.mp h with h | h
      · right; exact h
      · left
        rw [← splitext_append s]
        exact List.mem_append_right _ h
  · rw [if_neg hb] at h
    left
    exact h

theorem sanitizeCleanPhase_chars (f : List Char) (c : Char)
    (hc : c ∈ sanitizeCleanPhase f) : goodChar c := by
  unfold sanitizeCleanPhase at hc
  have h1 := pyStrip_subset (rstripDotSpace_subset hc)
  rcases mem_subWsRuns1Aux _ _ _ h1 with h2 | h2
  · rw [List.mem_filter] at h2
    obtain ⟨h3, hctrl⟩ := h2
    rw [List.mem_filter] at h3
    obtain ⟨h4, hpunct⟩ := h3
    rw [List.mem_map] at h4
    obtain ⟨d, hd, hmap⟩ := h4
    refine ⟨?_, ?_, ?_, by simpa using hctrl⟩
    · simp only [Bool.not_eq_true'] at hpunct
      intro hmem
      have hcont : forbiddenPunct.contains c = true := by
        rw [List.contains_iff_exists_mem_beq]
        exact ⟨c, hmem, by simp⟩
      rw [hcont] at hpunct
      simp at hpunct
    · intro hcs
      by_cases hsep : d = '/' ∨ d = '\\'
      · rw [if_pos hsep] at hmap
        rw [← hmap] at hcs
        exact absurd hcs (by decide)
      · rw [if_neg hsep] at hmap
        rw [← hmap] at hcs
        exact hsep (Or.inl hcs)
    · intro hcs
      by_cases hsep : d = '/' ∨ d = '\\'
      · rw [if_pos hsep] at hmap
        rw [← hmap] at hcs
        exact absurd hcs (by decide)
      · rw [if_neg hsep] at hmap
        rw [← hmap] at hcs
        exact hsep (Or.inr hcs)
  · rw [h2]
    decide

theorem sanitizeFilename_chars (f : List Char) :
    ∀ c ∈ sanitizeFilename f, goodChar c := by
  have hs6 : ∀ c ∈ truncateStep (sanitizeCleanPhase f), goodChar c := by
    intro c hc
    rcases truncateStep_subset hc with h | h
    · exact sanitizeCleanPhase_chars f c h
    · rw [h]; decide
  intro c hc
  simp only [sanitizeFilename] at hc
  split_ifs at hc with hres hfb hfb
  · have : ∀ d ∈ fallbackFilename, goodChar d := by decide
    exact this c hc
  · rcases List.mem_cons.mp hc with h2 | h2
    · rw [h2]; decide
    · exact hs6 c h2
  · have : ∀ d ∈ fallbackFilename, goodChar d := by decide
    exact this c hc
  · exact hs6 c hc

theorem rstripDotSpace_getLast {l : List Char} {c : Char}
    (h : (rstripDotSpace l).getLast? = some c) : c ≠ '.' ∧ c ≠ ' ' := by
  unfold rstripDotSpace at h
  rw [List.getLast?_reverse] at h
  cases hd : l.reverse.dropWhile (fun c => c = '.' || c = ' ') with
  | nil => rw [hd] at h; simp at h
  | cons x xs =>
    rw [hd] at h
    simp only [List.head?_cons, Option.some.injEq] at h
    subst h
    have hx := dropWhile_head_false hd
    simp only [Bool.or_eq_false_iff, decide_eq_false_iff_not] at hx
    exact hx

theorem truncateStep_getLast (s : List Char) (c : Char)
    (hs : ∀ d, s.getLast? = some d → d ≠ '.' ∧ d ≠ ' ')
    (h : (truncateStep s).getLast? = some c) : c ≠ '.' ∧ c ≠ ' ' := by
  simp only [truncateStep] at h
  by_cases hb : maxLenBytes < byteLen s
  · rw [if_pos hb] at h
    cases hext : (splitext s).2 with
    | nil =>
      rw [hext] at h
      rw [List.getLast?_concat] at h
      simp only [Option.some.injEq] at h
      subst h
      exact ⟨by decide, by decide⟩
    | cons e0 erest =>
      rw [hext] at h
      cases hg : (e0 :: erest).getLast? with
      | none =>
        rw [List.getLast?_eq_none_iff] at hg
        exact absurd hg (by simp)
      | some d =>
        have h1 : ('~' :: e0 :: erest).getLast? = some d := by
          rw [List.getLast?_cons_cons, hg]
        rw [List.getLast?_append, h1] at h
        simp only [Option.or_some] at h
        have h2 : s.getLast? = some d := by
          conv_lhs => rw [← splitext_append s]
          rw [List.getLast?_append, hext, hg]
          rfl
        simp only [Option.some.injEq] at h
        rw [← h]
        exact hs d h2
  · rw [if_neg hb] at h
    exact hs c h

theorem sanitizeFilename_getLast (f : List Char) (c : Char)
    (h : (sanitizeFilename f).getLast? = some c) : c ≠ '.' ∧ c ≠ ' ' := by
  have hbase : ∀ d, (truncateStep (sanitizeCleanPhase f)).getLast? = some d →
      d ≠ '.' ∧ d ≠ ' ' := by
    intro d hd
    exact truncateStep_getLast _ _ (fun x hx => rstripDotSpace_getLast hx) hd
  simp only [sanitizeFilename] at h
  split_ifs at h with hres hfb hfb
  · rw [show fallbackFilename.getLast? = some 't' from by decide] at h
    simp only [Option.some.injEq] at h
    subst h
    exact ⟨by decide, by decide⟩
  · cases hs6c : truncateStep (sanitizeCleanPhase f) with
    | nil =>
      rw [hs6c] at h
      simp only [List.getLast?_singleton, Option.some.injEq] at h
      subst h
      exact ⟨by decide, by decide⟩
    | cons x xs =>
      rw [hs6c, List.getLast?_cons_cons] at h
      apply hbase
      rw [hs6c]
      exact h
  · rw [show fallbackFilename.getLast? = some 't' from by decide] at h
    simp only [Option.some.injEq] at h
    subst h
    exact ⟨by decide, by decide⟩
  · exact hbase c h

theorem sanitizeFilename_cap (f : List Char)
    (hlen : maxLenBytes < byteLen (sanitizeCleanPhase f))
    (hext : (splitext (sanitizeCleanPhase f)).2 ≠ [])
    (hsz : byteLen (splitext (sanitizeCleanPhase f)).2 + 1 ≤ maxLenBytes) :
    byteLen (sanitizeFilename f) ≤ maxLenBytes ∧
    ∃ nm, sanitizeFilename f =
      nm ++ '~' :: (splitext (sanitizeCleanPhase f)).2 := by
  rcases splitext_ext_shape (sanitizeCleanPhase f) with hnil | ⟨e, hsh, hdot⟩
  · exact absurd hnil hext
  have hk : sliceBound (byteLen (splitext (sanitizeCleanPhase f)).1)
      ((maxLenBytes : Int) - (byteLen (splitext (sanitizeCleanPhase f)).2 : Int) - 1) =
      maxLenBytes - byteLen (splitext (sanitizeCleanPhase f)).2 - 1 := by
    unfold sliceBound
    have hc : (0 : Int) ≤
        (maxLenBytes : Int) - (byteLen (splitext (sanitizeCleanPhase f)).2 : Int) - 1 := by
      have hcast : (byteLen (splitext (sanitizeCleanPhase f)).2 : Int) + 1 ≤
          (maxLenBytes : Int) := by exact_mod_cast hsz
      omega
    rw [if_pos hc]
    omega
  have hs6 : truncateStep (sanitizeCleanPhase f) =
      takeBytes (maxLenBytes - byteLen (splitext (sanitizeCleanPhase f)).2 - 1)
          (splitext (sanitizeCleanPhase f)).1 ++
        '~' :: (splitext (sanitizeCleanPhase f)).2 := by
    simp only [truncateStep]
    rw [if_pos hlen, hk]
  have hbyte : byteLen (truncateStep (sanitizeCleanPhase f)) ≤ maxLenBytes := by
    rw [hs6, byteLen_append]
    have h1 := takeBytes_byteLen
      (maxLenBytes - byteLen (splitext (sanitizeCleanPhase f)).2 - 1)
      (splitext (sanitizeCleanPhase f)).1
    have h2 : byteLen ('~' :: (splitext (sanitizeCleanPhase f)).2) =
        1 + byteLen (splitext (sanitizeCleanPhase f)).2 := by
      unfold byteLen
      rw [List.map_cons, List.sum_cons]
      rfl
    rw [h2]
    omega
  have hstem : splitext (truncateStep (sanitizeCleanPhase f)) =
      (takeBytes (maxLenBytes - byteLen (splitext (sanitizeCleanPhase f)).2 - 1)
          (splitext (sanitizeCleanPhase f)).1 ++ ['~'],
        (splitext (sanitizeCleanPhase f)).2) := by
    rw [hs6, hsh]
    exact splitext_concat_tilde _ _ hdot
  have hguard : reservedNames.contains
      ((splitext (truncateStep (sanitizeCleanPhase f))).1.map Char.toUpper) =
      false := by
    rw [hstem]
    by_contra hcon
    rw [Bool.not_eq_false, List.contains_iff_exists_mem_beq] at hcon
    obtain ⟨r, hr, hbeq⟩ := hcon
    have hre : (takeBytes (maxLenBytes - byteLen (splitext (sanitizeCleanPhase f)).2 - 1)
        (splitext (sanitizeCleanPhase f)).1 ++ ['~']).map Char.toUpper = r := by
      simpa using hbeq
    have hlast : ((takeBytes (maxLenBytes - byteLen (splitext (sanitizeCleanPhase f)).2 - 1)
        (splitext (sanitizeCleanPhase f)).1 ++ ['~']).map Char.toUpper).getLast? =
        some '~' := by
      rw [List.map_append]
      have hmu : (['~'] : List Char).map Char.toUpper = ['~'] := by decide
      rw [hmu, List.getLast?_concat]
    rw [hre] at hlast
    have hall : ∀ r ∈ reservedNames, r.getLast? ≠ some '~' := by decide
    exact hall r hr hlast
  have hne : ¬(truncateStep (sanitizeCleanPhase f) = [] ∨
      (truncateStep (sanitizeCleanPhase f)).map Char.toLower = datExt) := by
    rw [hs6]
    refine not_or.mpr ⟨?_, ?_⟩
    · simp
    · intro hdat
      have hmem : '~' ∈ (takeBytes (maxLenBytes -
          byteLen (splitext (sanitizeCleanPhase f)).2 - 1)
          (splitext (sanitizeCleanPhase f)).1 ++
          '~' :: (splitext (sanitizeCleanPhase f)).2).map Char.toLower := by
        rw [List.mem_map]
        exact ⟨'~', by simp, by decide⟩
      rw [hdat] at hmem
      exact absurd hmem (by decide)
  have hfinal : sanitizeFilename f = truncateStep (sanitizeCleanPhase f) := by
    simp only [sanitizeFilename, hguard, Bool.false_eq_true, if_false]
    rw [if_neg hne]
  refine ⟨by rw [hfinal]; exact hbyte, ?_⟩
  exact ⟨takeBytes (maxLenBytes - byteLen (splitext (sanitizeCleanPhase f)).2 - 1)
      (splitext (sanitizeCleanPhase f)).1, by rw [hfinal, hs6]⟩

theorem splitext_cons_head (c : Char) (l : List Char) (hc : ¬ c = '.') :
    ((splitext (c :: l)).1).head? = some c := by
  by_cases h2 : (extSplit l).2 = []
  · have he : extSplit (c :: l) = (c :: l, []) := by
      conv_lhs => unfold extSplit
      simp [h2, hc]
    simp only [splitext, he]
    rw [if_neg (by simp)]
    rfl
  · have he : extSplit (c :: l) = (c :: (extSplit l).1, (extSplit l).2) := by
      conv_lhs => unfold extSplit
      simp [h2]
    simp only [splitext, he]
    rw [if_pos ⟨h2, by simp [hc]⟩]
    rfl

theorem reservedNames_head_ne :
    ∀ r ∈ reservedNames, r.head? ≠ some '_' := by decide

theorem sanitizeFilename_reserved (f : List Char)
    (h : reservedNames.contains
      ((splitext (truncateStep (sanitizeCleanPhase f))).1.map Char.toUpper) = true) :
    sanitizeFilename f = '_' :: truncateStep (sanitizeCleanPhase f) ∧
    reservedNames.contains
      ((splitext (sanitizeFilename f)).1.map Char.toUpper) = false := by
  have hne2 : ¬('_' :: truncateStep (sanitizeCleanPhase f) = [] ∨
      ('_' :: truncateStep (sanitizeCleanPhase f)).map Char.toLower = datExt) := by
    refine not_or.mpr ⟨by simp, ?_⟩
    intro hdat
    have h1 : (('_' :: truncateStep (sanitizeCleanPhase f)).map Char.toLower).head? =
        some '_' := by
      rw [List.map_cons, List.head?_cons]
      decide
    rw [hdat] at h1
    exact absurd h1 (by decide)
  have hres : sanitizeFilename f = '_' :: truncateStep (sanitizeCleanPhase f) := by
    simp only [sanitizeFilename, h, if_true]
    rw [if_neg hne2]
  refine ⟨hres, ?_⟩
  rw [hres]
  have hhead : ((splitext ('_' :: truncateStep (sanitizeCleanPhase f))).1).head? =
      some '_' := splitext_cons_head _ _ (by decide)
  by_contra hcon
  rw [Bool.not_eq_false, List.contains_iff_exists_mem_beq] at hcon
  obtain ⟨r, hr, hbeq⟩ := hcon
  have hre : ((splitext ('_' :: truncateStep (sanitizeCleanPhase f))).1).map
      Char.toUpper = r := by simpa using hbeq
  have hupp : (((splitext ('_' :: truncateStep (sanitizeCleanPhase f))).1).map
      Char.toUpper).head? = some '_' := by
    cases hx : (splitext ('_' :: truncateStep (sanitizeCleanPhase f))).1 with
    | nil => rw [hx] at hhead; simp at hhead
    | cons a t =>
      rw [hx] at hhead
      simp only [List.head?_cons, Option.some.injEq] at hhead
      subst hhead
      rw [List.map_cons, List.head?_cons]
      decide
  rw [hre] at hupp
  exact reservedNames_head_ne r hr hupp

/-- C6 counterexample: the cap-and-marker sentence fails as stated.  The
input `"a." ++ 199 × 'b'` exceeds the byte cap, yet its sanitized result
also exceeds the cap (the 200-byte extension leaves a negative byte budget,
and the extension is reattached whole); and the input `201 × ':'` exceeds
the cap, yet its sanitized result carries no truncation marker (cleaning
drops every character and the fallback name is used). -/
theorem claim_C6_counterexample :
    (maxLenBytes < byteLen ('a' :: '.' :: List.replicate 199 'b') ∧
      maxLenBytes <
        byteLen (sanitizeFilename ('a' :: '.' :: List.replicate 199 'b'))) ∧
    (maxLenBytes < byteLen (List.replicate 201 ':') ∧
      '~' ∉ sanitizeFilename (List.replicate 201 ':')) := by
  exact ⟨⟨by decide, by decide⟩, ⟨by decide, by decide⟩⟩

/-- C6 (amended): the sanitized name contains none of the reserved
filesystem characters, no path separators, no control characters, and no
trailing dot or space; and when the cleaned value still exceeds the byte cap
and has a nonempty extension that fits under the cap (with room for the
marker), the result is within the cap and consists of the byte-truncated
stem, the `~` truncation marker, and the extension; and whenever the
post-truncation value's upper-cased stem is a reserved device name, the
result is that value prefixed with an underscore, whose stem is no longer a
reserved device name (the collision is avoided). -/
theorem claim_C6_amended (f : List Char) :
    (∀ c ∈ sanitizeFilename f, goodChar c) ∧
    (∀ c, (sanitizeFilename f).getLast? = some c → c ≠ '.' ∧ c ≠ ' ') ∧
    (maxLenBytes < byteLen (sanitizeCleanPhase f) →
      (splitext (sanitizeCleanPhase f)).2 ≠ [] →
      byteLen (splitext (sanitizeCleanPhase f)).2 + 1 ≤ maxLenBytes →
      byteLen (sanitizeFilename f) ≤ maxLenBytes ∧
      ∃ nm, sanitizeFilename f =
        nm ++ '~' :: (splitext (sanitizeCleanPhase f)).2) ∧
    (reservedNames.contains
        ((splitext (truncateStep (sanitizeCleanPhase f))).1.map Char.toUpper) =
        true →
      sanitizeFilename f = '_' :: truncateStep (sanitizeCleanPhase f) ∧
      reservedNames.contains
        ((splitext (sanitizeFilename f)).1.map Char.toUpper) = false) :=
  ⟨sanitizeFilename_chars f, fun c h => sanitizeFilename_getLast f c h,
    fun h1 h2 h3 => sanitizeFilename_cap f h1 h2 h3,
    fun h => sanitizeFilename_reserved f h⟩

theorem claim_C6_witness :
    ((maxLenBytes <
      byteLen (sanitizeCleanPhase (List.replicate 220 'x' ++ ".dat".data)) ∧
    (splitext (sanitizeCleanPhase (List.replicate 220 'x' ++ ".dat".data))).2 ≠ [] ∧
    byteLen (splitext (sanitizeCleanPhase
      (List.replicate 220 'x' ++ ".dat".data))).2 + 1 ≤ maxLenBytes) ∧
    (byteLen (sanitizeFilename (List.replicate 220 'x' ++ ".dat".data)) ≤
      maxLenBytes ∧
    ∃ nm, sanitizeFilename (List.replicate 220 'x' ++ ".dat".data) =
      nm ++ '~' :: (splitext (sanitizeCleanPhase
        (List.replicate 220 'x' ++ ".dat".data))).2)) ∧
    (reservedNames.contains
        ((splitext (truncateStep (sanitizeCleanPhase ("CON.dat".data)))).1.map
          Char.toUpper) = true ∧
    sanitizeFilename ("CON.dat".data) =
      '_' :: truncateStep (sanitizeCleanPhase ("CON.dat".data)) ∧
    reservedNames.contains
      ((splitext (sanitizeFilename ("CON.dat".data))).1.map Char.toUpper) =
      false) :=
  ⟨⟨⟨by decide, by decide, by decide⟩,
    (claim_C6_amended (List.replicate 220 'x' ++ ".dat".data)).2.2.1
      (by decide) (by decide) (by decide)⟩,
   by decide,
   (claim_C6_amended ("CON.dat".data)).2.2.2 (by decide)⟩

/- ===========================================================================
C4: maker / platform-name extraction.
=========================================================================== -/

theorem pyStrip_infix_self (l : List Char) : pyStrip l <:+: l := by
  obtain ⟨w1, w2, _, _, hdec⟩ := pyStrip_decomp l
  exact ⟨w1, w2, hdec.symm⟩

theorem stripLeft_eq_self {l : List Char}
    (h : ∀ c, l.head? = some c → isWS c = false) : stripLeft l = l := by
  cases l with
  | nil => rfl
  | cons c t =>
    have hc := h c rfl
    exact List.dropWhile_cons_of_neg (by simp [hc])

theorem stripRight_eq_self {l : List Char}
    (h : ∀ c, l.getLast? = some c → isWS c = false) : stripRight l = l := by
  unfold stripRight
  cases hr : l.reverse with
  | nil =>
    rw [List.reverse_eq_nil_iff] at hr
    rw [hr]
    rfl
  | cons c t =>
    have hc : l.getLast? = some c := by
      rw [← List.head?_reverse, hr]
      rfl
    rw [List.dropWhile_cons_of_neg (by simp [h c hc]), ← hr,
      List.reverse_reverse]

theorem pyStrip_eq_self {l : List Char}
    (hh : ∀ c, l.head? = some c → isWS c = false)
    (hl : ∀ c, l.getLast? = some c → isWS c = false) : pyStrip l = l := by
  unfold pyStrip
  rw [stripLeft_eq_self hh, stripRight_eq_self hl]

theorem subWsRuns2Aux_head (fuel : Nat) (l : List Char) :
    (subWsRuns2Aux fuel l).head? = l.head? ∨
      ((subWsRuns2Aux fuel l).head? = some ' ' ∧
        ∃ d, l.head? = some d ∧ isWS d = true) := by
  cases fuel with
  | zero => left; rfl
  | succ n =>
    cases l with
    | nil => left; rfl
    | cons a l2 =>
      cases l2 with
      | nil => left; rfl
      | cons b t =>
        by_cases hw : (isWS a && isWS b) = true
        · right
          refine ⟨?_, a, rfl, ((Bool.and_eq_true _ _).mp hw).1⟩
          have e : subWsRuns2Aux (n + 1) (a :: b :: t) =
              ' ' :: subWsRuns2Aux n (t.dropWhile isWS) := by
            conv_lhs => unfold subWsRuns2Aux
            rw [if_pos hw]
          rw [e]
          rfl
        · left
          have e : subWsRuns2Aux (n + 1) (a :: b :: t) =
              a :: subWsRuns2Aux n (b :: t) := by
            conv_lhs => unfold subWsRuns2Aux
            rw [if_neg hw]
          rw [e]
          rfl

theorem subWsRuns2Aux_chain (fuel : Nat) :
    ∀ l : List Char, l.length ≤ fuel →
      List.Chain' (fun a b => (isWS a && isWS b) = false)
        (subWsRuns2Aux fuel l) := by
  induction fuel with
  | zero =>
    intro l hl
    have hz : l = [] := List.length_eq_zero.mp (Nat.le_zero.mp hl)
    rw [hz]
    simp [subWsRuns2Aux]
  | succ n ih =>
    intro l hl
    cases l with
    | nil => simp [subWsRuns2Aux]
    | cons a l2 =>
      cases l2 with
      | nil => simp [subWsRuns2Aux]
      | cons b t =>
        simp only [List.length_cons] at hl
        by_cases hw : (isWS a && isWS b) = true
        · have e : subWsRuns2Aux (n + 1) (a :: b :: t) =
              ' ' :: subWsRuns2Aux n (t.dropWhile isWS) := by
            conv_lhs => unfold subWsRuns2Aux
            rw [if_pos hw]
          rw [e, List.chain'_cons']
          constructor
          · intro y hy
            have hynws : isWS y = false := by
              rcases subWsRuns2Aux_head n (t.dropWhile isWS) with hh |
                  ⟨hh, d, hd, hwd⟩
              · rw [hh] at hy
                cases hdw : t.dropWhile isWS with
                | nil => rw [hdw] at hy; simp at hy
                | cons x xs =>
                  rw [hdw] at hy
                  simp only [List.head?_cons, Option.mem_def,
                    Option.some.injEq] at hy
                  rw [hy] at hdw
                  exact dropWhile_head_false hdw
              · exfalso
                have hdws : isWS d = false := by
                  cases hdw : t.dropWhile isWS with
                  | nil => rw [hdw] at hd; simp at hd
                  | cons x xs =>
                    rw [hdw] at hd
                    simp only [List.head?_cons, Option.some.injEq] at hd
                    rw [hd] at hdw
                    exact dropWhile_head_false hdw
                rw [hdws] at hwd
                exact absurd hwd (by simp)
            simp [hynws]
          · apply ih
            have h1 : (t.dropWhile isWS).length ≤ t.length :=
              (List.dropWhile_sublist _).length_le
            omega
        · have e : subWsRuns2Aux (n + 1) (a :: b :: t) =
              a :: subWsRuns2Aux n (b :: t) := by
            conv_lhs => unfold subWsRuns2Aux
            rw [if_neg hw]
          rw [e, List.chain'_cons']
          constructor
          · intro y hy
            rcases subWsRuns2Aux_head n (b :: t) with hh | ⟨hh, d, hd, hwd⟩
            · rw [hh] at hy
              simp only [List.head?_cons, Option.mem_def,
                Option.some.injEq] at hy
              rw [← hy]
              simpa using hw
            · rw [hh] at hy
              simp only [Option.mem_def, Option.some.injEq] at hy
              rw [← hy]
              simp only [List.head?_cons, Option.some.injEq] at hd
              have hb : isWS b = true := by rw [hd]; exact hwd
              have ha : isWS a = false := by
                rcases Bool.eq_false_or_eq_true (isWS a) with h | h
                · exact absurd (by rw [h, hb]; rfl) hw
                · exact h
              simp [ha]
          · apply ih
            simp only [List.length_cons]
            omega

theorem cleanedName_chain (raw : List Char) :
    List.Chain' (fun a b => (isWS a && isWS b) = false) (cleanedName raw) := by
  have hbase : List.Chain' (fun a b => (isWS a && isWS b) = false)
      (subWsRuns2 (pyStrip (subParens raw))) :=
    subWsRuns2Aux_chain _ _ (Nat.le_refl _)
  exact hbase.infix (pyStrip_infix_self _)

theorem splitOnceSep_decomp (sep : List Char) :
    ∀ s p q, splitOnceSep sep s = some (p, q) → s = p ++ sep ++ q := by
  intro s
  induction s with
  | nil => intro p q h; simp [splitOnceSep] at h
  | cons a t ih =>
    intro p q h
    unfold splitOnceSep at h
    by_cases hpre : sep.isPrefixOf (a :: t)
    · rw [if_pos hpre] at h
      simp only [Option.some.injEq, Prod.mk.injEq] at h
      obtain ⟨hp, hq⟩ := h
      rw [List.isPrefixOf_iff_prefix] at hpre
      obtain ⟨r, hr⟩ := hpre
      rw [← hp, ← hq, ← hr, List.nil_append, List.drop_left]
    · rw [if_neg hpre] at h
      cases hsp : splitOnceSep sep t with
      | none => rw [hsp] at h; simp at h
      | some pq =>
        rw [hsp] at h
        simp only [Option.map_some', Option.some.injEq] at h
        have ht := ih pq.1 pq.2 (by rw [hsp])
        cases h
        rw [ht]
        simp

theorem cleanedName_head_false {raw : List Char} {c : Char} {t : List Char}
    (h : cleanedName raw = c :: t) : isWS c = false :=
  pyStrip_head_false h

theorem cleanedName_getLast_false {raw : List Char} {c : Char}
    (h : (cleanedName raw).getLast? = some c) : isWS c = false :=
  pyStrip_getLast_false h

theorem splitOnceSep_parts (raw p q : List Char)
    (hsp : splitOnceSep sepDash (cleanedName raw) = some (p, q)) :
    pyStrip p = p ∧ pyStrip p ≠ [] ∧ pyStrip q = q := by
  have hdec := splitOnceSep_decomp sepDash (cleanedName raw) p q hsp
  have hdec1 : cleanedName raw = p ++ (sepDash ++ q) := by
    rw [hdec, List.append_assoc]
  have hdec2 : cleanedName raw = (p ++ sepDash) ++ q := by
    rw [hdec]
  have hchain1 := cleanedName_chain raw
  rw [hdec1, List.chain'_append] at hchain1
  obtain ⟨hchp, hchsq, hcross1⟩ := hchain1
  have hchain2 := cleanedName_chain raw
  rw [hdec2, List.chain'_append] at hchain2
  obtain ⟨hchps, hchq, hcross2⟩ := hchain2
  have hp_ne : p ≠ [] := by
    intro hnil
    subst hnil
    simp only [List.nil_append] at hdec1
    have hws : isWS ' ' = false :=
      cleanedName_head_false (t := '-' :: ' ' :: q) (by rw [hdec1]; rfl)
    exact absurd hws (by decide)
  have hp_head : ∀ c, p.head? = some c → isWS c = false := by
    intro c hc
    cases p with
    | nil => simp at hc
    | cons c0 p0 =>
      simp only [List.head?_cons, Option.some.injEq] at hc
      subst hc
      have hcl : cleanedName raw = c0 :: (p0 ++ (sepDash ++ q)) := by
        rw [hdec1]
        simp
      exact cleanedName_head_false hcl
  have hp_last : ∀ c, p.getLast? = some c → isWS c = false := by
    intro c hc
    have hr := hcross1 c hc ' ' (by rfl)
    rcases Bool.eq_false_or_eq_true (isWS c) with h | h
    · rw [h, show isWS ' ' = true from rfl] at hr
      exact absurd hr (by decide)
    · exact h
  have hq_head : ∀ c, q.head? = some c → isWS c = false := by
    intro c hc
    have hlastps : (p ++ sepDash).getLast? = some ' ' := by
      rw [List.getLast?_append]
      rfl
    have hr := hcross2 ' ' hlastps c hc
    rw [show isWS ' ' = true from rfl] at hr
    simpa using hr
  have hq_last : ∀ c, q.getLast? = some c → isWS c = false := by
    intro c hc
    have hcl : (cleanedName raw).getLast? = some c := by
      rw [hdec2, List.getLast?_append, hc]
      rfl
    exact cleanedName_getLast_false hcl
  refine ⟨pyStrip_eq_self hp_head hp_last, ?_, pyStrip_eq_self hq_head hq_last⟩
  rw [pyStrip_eq_self hp_head hp_last]
  exact hp_ne

/-- C4: the maker / platform-name extraction first strips parenthetical
qualifiers and collapses whitespace (producing `cleanedName`), then splits on
the literal `" - "`: when the separator occurs, the part before it is the
maker and the part after it the platform name (the code's additional strip
and empty-maker fallback never fire on a cleaned string); when it does not,
the maker is the unknown sentinel and the cleaned string is the platform
name.  The two concrete examples of the specification are included. -/
theorem claim_C4 :
    (∀ raw p q, splitOnceSep sepDash (cleanedName raw) = some (p, q) →
      extractConsoleDetails (some raw) = (p, q)) ∧
    (∀ raw, splitOnceSep sepDash (cleanedName raw) = none →
      extractConsoleDetails (some raw) = (unknownMaker, cleanedName raw)) ∧
    extractConsoleDetails (some ("Nintendo - Game Boy".data)) =
      ("Nintendo".data, "Game Boy".data) ∧
    extractConsoleDetails (some ("Game Boy (Color)".data)) =
      (unknownMaker, "Game Boy".data) := by
  refine ⟨?_, ?_, by decide, by decide⟩
  · intro raw p q hsp
    obtain ⟨hp, hpne, hq⟩ := splitOnceSep_parts raw p q hsp
    simp only [extractConsoleDetails]
    rw [hsp]
    simp only [hp, hq]
    rw [hp] at hpne
    rw [if_neg hpne]
  · intro raw hnone
    simp only [extractConsoleDetails]
    rw [hnone]

theorem claim_C4_witness :
    splitOnceSep sepDash (cleanedName ("Sega - Mega Drive".data)) =
      some ("Sega".data, "Mega Drive".data) ∧
    extractConsoleDetails (some ("Sega - Mega Drive".data)) =
      ("Sega".data, "Mega Drive".data) :=
  ⟨by decide, claim_C4.1 ("Sega - Mega Drive".data) ("Sega".data)
    ("Mega Drive".data) (by decide)⟩
